import Mathlib

set_option linter.unusedVariables false

/-!
A shallow embedding of the Beringei client result collector
(`beringei/client/BeringeiGetResult.h`).

The header declares `BeringeiGetResult` (with inline constructors) and the
class `BeringeiGetResultCollector` whose member functions `addResults`,
`merge` and `finalize` are implemented in a translation unit that is not
part of the visible source.  Those operations are therefore modelled from
the specification document (sections 4.1, 4.2, 4.3 and 7), faithful to its
words; each such definition carries a doc comment saying so.
-/

/-- A single time-stamped sample.  The header stores a Thrift
`TimeValuePair`; the spec treats the value as opaque beyond equality, so it
is embedded as an integer. -/
structure TimeValuePair where
  unixTime : Int
  value : Int
  deriving DecidableEq, Repr

/-- Modelled from the spec: a `KeySeries` is an ordered sequence of samples
for one key, as returned by one replica in one report; it may be empty, may
contain duplicates or out-of-window entries.  The Thrift `TimeSeriesData`
payload is embedded as the list of samples it decodes to. -/
abbrev TimeSeriesData := List TimeValuePair

/-- Modelled from the spec: a `ReplicaReport` is one replica's answer, a
sequence of `KeySeries` (the key-index mapping travels separately, as the
`indices` argument of `addResults`). -/
structure GetDataResult where
  results : List TimeSeriesData
  deriving DecidableEq, Repr

/-- The result container of `BeringeiGetResult.h` lines 28-40: per-key
sample sequences, an overall-success flag and a memory estimate. -/
structure BeringeiGetResult where
  results : List (List TimeValuePair)
  allSuccess : Bool
  memoryEstimate : Nat
  deriving DecidableEq, Repr

/-- The default constructor (header line 29): `allSuccess(false),
memoryEstimate(0)`, with `results` default-constructed empty. -/
def BeringeiGetResult.default : BeringeiGetResult :=
  { results := [], allSuccess := false, memoryEstimate := 0 }

/-- The size constructor (header lines 30-31): `results(size)` creates
`size` empty per-key vectors; `allSuccess(false)`, `memoryEstimate(0)`. -/
def BeringeiGetResult.ofSize (size : Nat) : BeringeiGetResult :=
  { results := List.replicate size [], allSuccess := false, memoryEstimate := 0 }

/-- Per-key attendance record (header lines 89-92): how many replicas have
contributed (`count`) and which ones (`received`, a `std::bitset<32>`
embedded as a natural-number bitmask read through `Nat.testBit`). -/
structure KeyStats where
  count : Nat
  received : Nat
  deriving DecidableEq, Repr

/-- The collector state (header lines 48-104).  The `folly` mutex only
serialises calls and carries no data, so it has no counterpart here; the
remaining fields are embedded one for one. -/
structure BeringeiGetResultCollector where
  beginTime_ : Int
  endTime_ : Int
  numServices_ : Nat
  remainingKeys_ : Nat
  complete_ : List KeyStats
  drops_ : List Int
  mismatches_ : List Int
  done_ : Bool
  result_ : BeringeiGetResult
  deriving DecidableEq, Repr

/-- Modelled from the spec (section 7): the error kinds of the collector.
`IncompletenessError` carries, per replica name, how many keys that replica
failed to contribute. -/
inductive CollectorError where
  | CapacityError : CollectorError
  | IncompletenessError : List (String × Int) → CollectorError
  | DoubleFinalize : CollectorError
  deriving DecidableEq, Repr

/-- Modelled from the spec: the raw field initialisation of the collector
constructor — query window, replica total, `keys` still incomplete, fresh
attendance records, zeroed loss counters, a disagreement table of size
`2 ^ services` indexed by attendance bitmask, and a result container with
`keys` empty per-key vectors. -/
def initCollector (keys services : Nat) (b e : Int) : BeringeiGetResultCollector :=
  { beginTime_ := b
    endTime_ := e
    numServices_ := services
    remainingKeys_ := keys
    complete_ := List.replicate keys { count := 0, received := 0 }
    drops_ := List.replicate services 0
    mismatches_ := List.replicate (2 ^ services) 0
    done_ := false
    result_ := BeringeiGetResult.ofSize keys }

/-- Modelled from the spec (sections 6 and 7): construction fails with
`CapacityError` when the replica count exceeds 32, the width of the
attendance bitset; otherwise it yields the initial collector state. -/
def mkCollector (keys services : Nat) (b e : Int) :
    Except CollectorError BeringeiGetResultCollector :=
  if 32 < services then Except.error CollectorError.CapacityError
  else Except.ok (initCollector keys services b e)

/-- Membership of a sample's timestamp in the query window `[begin, end)`
(spec section 4.2 step 1). -/
def inWindow (b e : Int) (p : TimeValuePair) : Bool :=
  decide (b ≤ p.unixTime) && decide (p.unixTime < e)

/-- Modelled from the spec (section 4.2 step 2): place one incoming sample
into the merged sequence.  If its timestamp is already present, keep the
previously merged value (first-writer-wins) and report one disagreement
when the values differ; otherwise insert it preserving chronological
order.  Returns the new sequence and the number of disagreements (0 or
1). -/
def insertSample (merged : List TimeValuePair) (s : TimeValuePair) :
    List TimeValuePair × Nat :=
  match merged with
  | [] => ([s], 0)
  | t :: rest =>
    if s.unixTime < t.unixTime then (s :: t :: rest, 0)
    else if s.unixTime = t.unixTime then
      if s.value = t.value then (t :: rest, 0) else (t :: rest, 1)
    else
      let r := insertSample rest s
      (t :: r.1, r.2)

/-- Modelled from the spec (section 4.2): merge one replica's series for
one key into the already merged sequence — discard samples outside
`[begin, end)`, then fold the survivors in; returns the merged sequence and
the total number of value disagreements detected. -/
def mergeSeries (b e : Int) (merged incoming : List TimeValuePair) :
    List TimeValuePair × Nat :=
  (incoming.filter (inWindow b e)).foldl
    (fun acc s =>
      let r := insertSample acc.1 s
      (r.1, acc.2 + r.2))
    (merged, 0)

/-- The slice of collector state owned by one key: its attendance record
and its merged sequence. -/
structure KeyView where
  stats : KeyStats
  merged : List TimeValuePair
  deriving DecidableEq, Repr

/-- The view of one key inside a collector. -/
def keyView (c : BeringeiGetResultCollector) (i : Nat) : KeyView :=
  { stats := c.complete_.getD i { count := 0, received := 0 }
    merged := c.result_.results.getD i [] }

/-- Modelled from the spec (section 4.1): the per-key effect of processing
one (key, series) entry of a report from replica `svc` — skip when the key
is already complete or this replica's bit is already set, otherwise merge
and update attendance. -/
def stepKey (ns : Nat) (b e : Int) (v : KeyView) (svc : Nat)
    (ser : List TimeValuePair) : KeyView :=
  if v.stats.count = ns ∨ v.stats.received.testBit svc = true then v
  else
    { stats := { count := v.stats.count + 1, received := v.stats.received ||| 2 ^ svc }
      merged := (mergeSeries b e v.merged ser).1 }

/-- Modelled from the spec (sections 4.1 and 4.2): process one (key,
series) entry of a report against the full collector state.  On a merge it
also charges the disagreement count to the counter indexed by the key's
attendance bitmask as it was before this replica's bit was added, and
decrements the incomplete-keys counter when the key reaches full
attendance. -/
def processEntry (c : BeringeiGetResultCollector) (svc i : Nat)
    (ser : List TimeValuePair) : BeringeiGetResultCollector :=
  if i < c.complete_.length then
    let v := keyView c i
    if v.stats.count = c.numServices_ ∨ v.stats.received.testBit svc = true then c
    else
      let md := mergeSeries c.beginTime_ c.endTime_ v.merged ser
      { beginTime_ := c.beginTime_
        endTime_ := c.endTime_
        numServices_ := c.numServices_
        remainingKeys_ :=
          if v.stats.count + 1 = c.numServices_ then c.remainingKeys_ - 1
          else c.remainingKeys_
        complete_ :=
          c.complete_.set i
            { count := v.stats.count + 1, received := v.stats.received ||| 2 ^ svc }
        drops_ := c.drops_
        mismatches_ :=
          c.mismatches_.set v.stats.received
            (c.mismatches_.getD v.stats.received 0 + (md.2 : Int))
        done_ := c.done_
        result_ :=
          { results := c.result_.results.set i md.1
            allSuccess := c.result_.allSuccess
            memoryEstimate := c.result_.memoryEstimate } }
  else c

/-- One `addResults` invocation bundled as a value: the report, the
key-index mapping and the reporting replica. -/
structure AddCall where
  results : GetDataResult
  indices : List Nat
  service : Nat
  deriving DecidableEq, Repr

/-- The (service, key, series) entries carried by one call, in report
order. -/
def callEntries (call : AddCall) : List (Nat × Nat × List TimeValuePair) :=
  (call.indices.zip call.results.results).map (fun p => (call.service, p.1, p.2))

/-- Fold a list of (service, key, series) entries through the collector. -/
def foldEntries (c : BeringeiGetResultCollector)
    (es : List (Nat × Nat × List TimeValuePair)) : BeringeiGetResultCollector :=
  es.foldl (fun a ent => processEntry a ent.1 ent.2.1 ent.2.2) c

/-- Modelled from the spec (sections 4.1 and 7): `addResults`.  A call made
after `finalize`, or whose key-index mapping length mismatches the report's
series count, or which names an out-of-range key, fails without mutating
any state and returns `false`.  Otherwise each (key, series) entry is
processed in order, and the call returns `true` exactly when its processing
drove the incomplete-keys counter from nonzero to zero. -/
def addResults (c : BeringeiGetResultCollector) (results : GetDataResult)
    (indices : List Nat) (service : Nat) : BeringeiGetResultCollector × Bool :=
  if c.done_ then (c, false)
  else if indices.length ≠ results.results.length then (c, false)
  else if ¬ (∀ i ∈ indices, i < c.complete_.length) then (c, false)
  else
    let c2 := foldEntries c (callEntries { results := results, indices := indices, service := service })
    (c2, decide (c.remainingKeys_ ≠ 0) && decide (c2.remainingKeys_ = 0))

/-- Run a sequence of `addResults` calls, keeping only the final state. -/
def runCollector (c : BeringeiGetResultCollector) (calls : List AddCall) :
    BeringeiGetResultCollector :=
  calls.foldl (fun a call => (addResults a call.results call.indices call.service).1) c

/-- Run a sequence of `addResults` calls, keeping the return values. -/
def runFlags (c : BeringeiGetResultCollector) (calls : List AddCall) : List Bool :=
  match calls with
  | [] => []
  | call :: rest =>
    let r := addResults c call.results call.indices call.service
    r.2 :: runFlags r.1 rest

/-- Modelled from the spec (section 4.3): the per-replica loss counters —
for each replica, the number of keys whose attendance bit for that replica
is unset. -/
def computeDrops (c : BeringeiGetResultCollector) : List Int :=
  (List.range c.numServices_).map
    (fun s => ((c.complete_.filter (fun ks => ks.received.testBit s = false)).length : Int))

/-- Modelled from the spec: the fixed per-sample footprint used by the
memory estimate (an unspecified positive constant in the spec). -/
def perSampleCost : Nat := 16

/-- Modelled from the spec: the fixed per-key overhead used by the memory
estimate (an unspecified constant in the spec). -/
def perKeyOverhead : Nat := 8

/-- Modelled from the spec (section 4.3): the memory estimate — the sum
over keys of sample count times a fixed per-sample cost, plus a fixed
per-key overhead. -/
def memoryEstimateOf (c : BeringeiGetResultCollector) : Nat :=
  c.result_.results.foldl (fun acc l => acc + l.length * perSampleCost + perKeyOverhead) 0

/-- Modelled from the spec (sections 4.3 and 7): `finalize`.  A second call
is a `DoubleFinalize` error.  Otherwise the engine is closed, loss counters
are computed from the attendance table, and either an
`IncompletenessError` carrying per-replica-name missing-key counts is
raised (when completeness was demanded but not achieved) or the result
container is handed out with `allSuccess` set exactly when no key remained
incomplete. -/
def finalize (c : BeringeiGetResultCollector) (validate : Bool)
    (serviceNames : List String) :
    BeringeiGetResultCollector × Except CollectorError BeringeiGetResult :=
  if c.done_ then (c, Except.error CollectorError.DoubleFinalize)
  else
    let c2 := { c with done_ := true, drops_ := computeDrops c }
    let allOk := decide (c.remainingKeys_ = 0)
    if validate && !allOk then
      (c2, Except.error (CollectorError.IncompletenessError
        (serviceNames.zip (computeDrops c))))
    else
      (c2, Except.ok
        { results := c.result_.results
          allSuccess := allOk
          memoryEstimate := memoryEstimateOf c })

/-- The disagreement-counter accessor of header lines 71-73. -/
def getMismatchesForTesting (c : BeringeiGetResultCollector) : List Int :=
  c.mismatches_

/-- The (key, service) pair covered by one report entry. -/
def pairKS (ent : Nat × Nat × List TimeValuePair) : Nat × Nat :=
  (ent.2.1, ent.1)

/-- All (service, key, series) entries of a call sequence, in order. -/
def entriesOfCalls (calls : List AddCall) : List (Nat × Nat × List TimeValuePair) :=
  (calls.map callEntries).flatten

/-- A well-formed call against a collector over `keys` keys and `services`
replicas: mapping length matches the series count, every key index is in
range, and the replica index is in range. -/
def goodCall (keys services : Nat) (call : AddCall) : Prop :=
  call.indices.length = call.results.results.length ∧
    (∀ i ∈ call.indices, i < keys) ∧ call.service < services

instance (keys services : Nat) (call : AddCall) : Decidable (goodCall keys services call) := by
  unfold goodCall
  infer_instance

/-- The condition under which `processEntry` leaves the collector unchanged
for replica `svc` and key `i`: the key index is out of range, the key is
already complete, or this replica's attendance bit is already set. -/
def skipKey (c : BeringeiGetResultCollector) (svc i : Nat) : Prop :=
  c.complete_.length ≤ i ∨
    ((c.complete_.getD i { count := 0, received := 0 }).count = c.numServices_ ∨
      (c.complete_.getD i { count := 0, received := 0 }).received.testBit svc = true)

/-- A concrete collector over one key and two replicas, used to exhibit the
order dependence of merged values under conflicting reports. -/
def c0ex : BeringeiGetResultCollector := initCollector 1 2 0 10

/-- Replica 0 reports the sample (t=5, v=1) for key 0. -/
def callA : AddCall :=
  { results := GetDataResult.mk [[TimeValuePair.mk 5 1]], indices := [0], service := 0 }

/-- Replica 1 reports the sample (t=5, v=2) for key 0. -/
def callB : AddCall :=
  { results := GetDataResult.mk [[TimeValuePair.mk 5 2]], indices := [0], service := 1 }

/-- The (service, series) entries of an entry list that target key `i`, in
order. -/
def keyEntries (i : Nat) (es : List (Nat × Nat × List TimeValuePair)) :
    List (Nat × List TimeValuePair) :=
  (es.filter (fun ent => ent.2.1 = i)).map (fun ent => (ent.1, ent.2.2))

/-- Fold the per-key step over a list of (service, series) submissions. -/
def foldKey (ns : Nat) (b e : Int) (v : KeyView)
    (l : List (Nat × List TimeValuePair)) : KeyView :=
  l.foldl (fun a p => stepKey ns b e a p.1 p.2) v

/-- Invariant: no key's attendance count exceeds the replica total. -/
def countLeInv (c : BeringeiGetResultCollector) : Prop :=
  ∀ ks ∈ c.complete_, ks.count ≤ c.numServices_

/-- Invariant: the incomplete-keys counter equals the number of attendance
records that have not reached the replica total. -/
def remInv (c : BeringeiGetResultCollector) : Prop :=
  c.remainingKeys_ =
    c.complete_.countP (fun ks => decide (ks.count ≠ c.numServices_))

/-! ## Basic list helpers -/

theorem list_getD_set_self {α : Type} (l : List α) (i : Nat) (a d : α)
    (h : i < l.length) : (l.set i a).getD i d = a := by
  induction l generalizing i with
  | nil => simp at h
  | cons x xs ih =>
    cases i with
    | zero => rfl
    | succ n =>
      simp only [List.set_cons_succ, List.getD_cons_succ]
      exact ih n (by simpa using h)

theorem list_getD_set_ne {α : Type} (l : List α) (i j : Nat) (a d : α)
    (h : i ≠ j) : (l.set i a).getD j d = l.getD j d := by
  induction l generalizing i j with
  | nil => simp [List.set_nil]
  | cons x xs ih =>
    cases i with
    | zero =>
      cases j with
      | zero => exact absurd rfl h
      | succ m => rfl
    | succ n =>
      cases j with
      | zero => rfl
      | succ m =>
        simp only [List.set_cons_succ, List.getD_cons_succ]
        exact ih n m (fun hh => h (by rw [hh]))

theorem list_set_getD_self {α : Type} (l : List α) (i : Nat) (d : α) :
    l.set i (l.getD i d) = l := by
  induction l generalizing i with
  | nil => rfl
  | cons x xs ih =>
    cases i with
    | zero => rfl
    | succ n =>
      simp only [List.getD_cons_succ, List.set_cons_succ]
      rw [ih n]

/-! ## Monotonicity of the incomplete-keys counter -/

theorem processEntry_remaining_le (c : BeringeiGetResultCollector) (svc i : Nat)
    (ser : List TimeValuePair) :
    (processEntry c svc i ser).remainingKeys_ ≤ c.remainingKeys_ := by
  unfold processEntry
  dsimp only
  split
  · split
    · exact Nat.le_refl _
    · dsimp only
      split <;> omega
  · exact Nat.le_refl _

theorem foldEntries_remaining_le (c : BeringeiGetResultCollector)
    (es : List (Nat × Nat × List TimeValuePair)) :
    (foldEntries c es).remainingKeys_ ≤ c.remainingKeys_ := by
  induction es generalizing c with
  | nil => exact Nat.le_refl _
  | cons ent rest ih =>
    exact Nat.le_trans (ih (processEntry c ent.1 ent.2.1 ent.2.2))
      (processEntry_remaining_le c ent.1 ent.2.1 ent.2.2)

theorem addResults_remaining_le (c : BeringeiGetResultCollector)
    (r : GetDataResult) (idx : List Nat) (s : Nat) :
    (addResults c r idx s).1.remainingKeys_ ≤ c.remainingKeys_ := by
  unfold addResults
  split
  · exact Nat.le_refl _
  · split
    · exact Nat.le_refl _
    · split
      · exact Nat.le_refl _
      · exact foldEntries_remaining_le c _

theorem addResults_flag_eq (c : BeringeiGetResultCollector)
    (r : GetDataResult) (idx : List Nat) (s : Nat) :
    (addResults c r idx s).2 =
      (decide (c.remainingKeys_ ≠ 0) &&
        decide ((addResults c r idx s).1.remainingKeys_ = 0)) := by
  unfold addResults
  split
  · simp
  · split
    · simp
    · split
      · simp
      · rfl

theorem runCollector_remaining_le (c : BeringeiGetResultCollector)
    (calls : List AddCall) :
    (runCollector c calls).remainingKeys_ ≤ c.remainingKeys_ := by
  induction calls generalizing c with
  | nil => exact Nat.le_refl _
  | cons call rest ih =>
    exact Nat.le_trans (ih _) (addResults_remaining_le c call.results call.indices call.service)

theorem runCollector_cons (c : BeringeiGetResultCollector) (call : AddCall)
    (rest : List AddCall) :
    runCollector c (call :: rest) =
      runCollector (addResults c call.results call.indices call.service).1 rest := rfl

/-! ## Claim theorems (first group) -/

/-- C1: across any sequence of `addResults` calls, exactly one call returns
`true` — the one whose processing drives the incomplete-keys counter from
nonzero to zero — when the run completes all keys, and no call returns
`true` otherwise. -/
theorem addResults_true_exactly_once (c : BeringeiGetResultCollector)
    (calls : List AddCall) :
    (runFlags c calls).count true =
      if c.remainingKeys_ ≠ 0 ∧ (runCollector c calls).remainingKeys_ = 0 then 1
      else 0 := by
  induction calls generalizing c with
  | nil =>
    simp only [runFlags, runCollector, List.foldl_nil, List.count_nil]
    split
    · rename_i hh; exact absurd hh.2 hh.1
    · rfl
  | cons call rest ih =>
    have hflag := addResults_flag_eq c call.results call.indices call.service
    have hmono := addResults_remaining_le c call.results call.indices call.service
    have hrun := runCollector_remaining_le
      (addResults c call.results call.indices call.service).1 rest
    simp only [runFlags, List.count_cons, runCollector_cons]
    rw [ih, hflag]
    by_cases h0 : c.remainingKeys_ = 0
    · have h1 : (addResults c call.results call.indices call.service).1.remainingKeys_ = 0 :=
        Nat.le_zero.mp (h0 ▸ hmono)
      simp [h0, h1]
    · by_cases h1 : (addResults c call.results call.indices call.service).1.remainingKeys_ = 0
      · have h2 : (runCollector (addResults c call.results call.indices call.service).1
            rest).remainingKeys_ = 0 := Nat.le_zero.mp (h1 ▸ hrun)
        simp [h0, h1, h2]
      · simp [h0, h1]

/-- C6: once `finalize` has run, every subsequent `addResults` call is a
pure no-op — it returns `false` and leaves the collector state unchanged. -/
theorem addResults_after_finalize_noop (c : BeringeiGetResultCollector)
    (validate : Bool) (names : List String) (r : GetDataResult)
    (idx : List Nat) (s : Nat) :
    addResults (finalize c validate names).1 r idx s =
      ((finalize c validate names).1, false) := by
  have hdone : (finalize c validate names).1.done_ = true := by
    unfold finalize
    by_cases hc : c.done_
    · simp [hc]
    · simp only [hc, Bool.false_eq_true, if_false]
      split <;> rfl
  unfold addResults
  simp [hdone]

/-- C7: constructing a collector with a replica count greater than 32, the
width of the attendance bitset, fails with `CapacityError`; a replica count
of at most 32 yields a usable engine. -/
theorem mkCollector_capacity (keys services : Nat) (b e : Int)
    (h : 32 < services) :
    mkCollector keys services b e = Except.error CollectorError.CapacityError := by
  simp [mkCollector, h]

/-- Witness for C7 at a concrete input. -/
theorem mkCollector_capacity_witness :
    32 < 33 ∧ mkCollector 4 33 0 100 = Except.error CollectorError.CapacityError :=
  ⟨by decide, mkCollector_capacity 4 33 0 100 (by decide)⟩

/-- C8: a malformed `addResults` call — mapping length differing from the
report's series count, or a key index out of range — fails immediately,
returning `false` and mutating no state. -/
theorem addResults_malformed_noop (c : BeringeiGetResultCollector)
    (r : GetDataResult) (idx : List Nat) (s : Nat)
    (h : idx.length ≠ r.results.length ∨ ∃ i ∈ idx, ¬ i < c.complete_.length) :
    addResults c r idx s = (c, false) := by
  unfold addResults
  by_cases hd : c.done_
  · simp [hd]
  · simp only [hd, Bool.false_eq_true, if_false]
    rcases h with h | ⟨i, hi, hlt⟩
    · simp [h]
    · have hall : ¬ (∀ j ∈ idx, j < c.complete_.length) := fun hall => hlt (hall i hi)
      by_cases hl : idx.length ≠ r.results.length
      · simp [hl]
      · simp [hl, hall]

/-- Witness for C8 at a concrete input. -/
theorem addResults_malformed_noop_witness :
    (([5] : List Nat).length ≠ (GetDataResult.mk [[]]).results.length ∨
      ∃ i ∈ ([5] : List Nat), ¬ i < (initCollector 2 2 0 10).complete_.length) ∧
    addResults (initCollector 2 2 0 10) (GetDataResult.mk [[]]) [5] 0 =
      (initCollector 2 2 0 10, false) :=
  ⟨by decide, addResults_malformed_noop (initCollector 2 2 0 10)
    (GetDataResult.mk [[]]) [5] 0 (by decide)⟩

/-- C10: the default-constructed result container has no per-key vectors,
`allSuccess = false` and a zero memory estimate; the size constructor makes
exactly `size` per-key vectors, each empty, with the same flag and
estimate. -/
theorem beringeiGetResult_ctor_defaults :
    (BeringeiGetResult.default.results = [] ∧
      BeringeiGetResult.default.allSuccess = false ∧
      BeringeiGetResult.default.memoryEstimate = 0) ∧
    ∀ n : Nat,
      (BeringeiGetResult.ofSize n).results.length = n ∧
      (∀ r ∈ (BeringeiGetResult.ofSize n).results, r = []) ∧
      (BeringeiGetResult.ofSize n).allSuccess = false ∧
      (BeringeiGetResult.ofSize n).memoryEstimate = 0 := by
  refine ⟨⟨rfl, rfl, rfl⟩, fun n => ⟨?_, ?_, rfl, rfl⟩⟩
  · simp [BeringeiGetResult.ofSize]
  · intro r hr
    exact List.eq_of_mem_replicate hr

/-! ## Frame facts about `processEntry` and `foldEntries` -/

theorem processEntry_fields (c : BeringeiGetResultCollector) (svc i : Nat)
    (ser : List TimeValuePair) :
    (processEntry c svc i ser).done_ = c.done_ ∧
    (processEntry c svc i ser).numServices_ = c.numServices_ ∧
    (processEntry c svc i ser).beginTime_ = c.beginTime_ ∧
    (processEntry c svc i ser).endTime_ = c.endTime_ ∧
    (processEntry c svc i ser).complete_.length = c.complete_.length ∧
    (processEntry c svc i ser).result_.results.length = c.result_.results.length := by
  unfold processEntry
  dsimp only
  split
  · split
    · exact ⟨rfl, rfl, rfl, rfl, rfl, rfl⟩
    · exact ⟨rfl, rfl, rfl, rfl, by simp, by simp⟩
  · exact ⟨rfl, rfl, rfl, rfl, rfl, rfl⟩

theorem foldEntries_fields (c : BeringeiGetResultCollector)
    (es : List (Nat × Nat × List TimeValuePair)) :
    (foldEntries c es).done_ = c.done_ ∧
    (foldEntries c es).numServices_ = c.numServices_ ∧
    (foldEntries c es).beginTime_ = c.beginTime_ ∧
    (foldEntries c es).endTime_ = c.endTime_ ∧
    (foldEntries c es).complete_.length = c.complete_.length ∧
    (foldEntries c es).result_.results.length = c.result_.results.length := by
  induction es generalizing c with
  | nil => exact ⟨rfl, rfl, rfl, rfl, rfl, rfl⟩
  | cons ent rest ih =>
    have h1 := processEntry_fields c ent.1 ent.2.1 ent.2.2
    have h2 := ih (processEntry c ent.1 ent.2.1 ent.2.2)
    exact ⟨h2.1.trans h1.1, h2.2.1.trans h1.2.1, h2.2.2.1.trans h1.2.2.1,
      h2.2.2.2.1.trans h1.2.2.2.1, h2.2.2.2.2.1.trans h1.2.2.2.2.1,
      h2.2.2.2.2.2.trans h1.2.2.2.2.2⟩

/-! ## Skip persistence -/

theorem processEntry_skip (c : BeringeiGetResultCollector) (svc i : Nat)
    (ser : List TimeValuePair) (h : skipKey c svc i) :
    processEntry c svc i ser = c := by
  unfold processEntry keyView
  dsimp only
  split
  · rename_i hlt
    split
    · rfl
    · rename_i hcond
      rcases h with h | h
      · omega
      · exact absurd h hcond
  · rfl

theorem processEntry_preserves_skipKey (c : BeringeiGetResultCollector)
    (s svc j : Nat) (ser : List TimeValuePair) (i : Nat)
    (h : skipKey c s i) : skipKey (processEntry c svc j ser) s i := by
  unfold processEntry keyView
  dsimp only
  split
  · rename_i hj
    split
    · exact h
    · rename_i hcond
      unfold skipKey at h ⊢
      dsimp only
      rw [List.length_set]
      by_cases hij : j = i
      · subst hij
        rcases h with h | h | h
        · omega
        · exact absurd (Or.inl h) hcond
        · right; right
          rw [list_getD_set_self _ _ _ _ hj]
          show ((c.complete_.getD j { count := 0, received := 0 }).received ||| 2 ^ svc).testBit s = true
          rw [Nat.testBit_or, h, Bool.true_or]
      · rw [list_getD_set_ne _ _ _ _ _ hij]
        exact h
  · exact h

theorem processEntry_establishes_skipKey (c : BeringeiGetResultCollector)
    (svc i : Nat) (ser : List TimeValuePair) :
    skipKey (processEntry c svc i ser) svc i := by
  by_cases hlt : i < c.complete_.length
  · unfold processEntry keyView
    dsimp only
    rw [if_pos hlt]
    split
    · rename_i hcond
      exact Or.inr hcond
    · unfold skipKey
      dsimp only
      right; right
      rw [list_getD_set_self _ _ _ _ hlt]
      simp [Nat.testBit_or, Nat.testBit_two_pow_self]
  · unfold processEntry
    dsimp only
    rw [if_neg hlt]
    exact Or.inl (Nat.le_of_not_lt hlt)

theorem foldEntries_preserves_skipKey (c : BeringeiGetResultCollector)
    (es : List (Nat × Nat × List TimeValuePair)) (s i : Nat)
    (h : skipKey c s i) : skipKey (foldEntries c es) s i := by
  induction es generalizing c with
  | nil => exact h
  | cons ent rest ih =>
    exact ih (processEntry c ent.1 ent.2.1 ent.2.2)
      (processEntry_preserves_skipKey c s ent.1 ent.2.1 ent.2.2 i h)

theorem foldEntries_establishes_skipKey (c : BeringeiGetResultCollector)
    (es : List (Nat × Nat × List TimeValuePair)) :
    ∀ ent ∈ es, skipKey (foldEntries c es) ent.1 ent.2.1 := by
  induction es generalizing c with
  | nil => intro ent h; cases h
  | cons e rest ih =>
    intro ent h
    rcases List.mem_cons.mp h with h | h
    · subst h
      exact foldEntries_preserves_skipKey _ rest _ _
        (processEntry_establishes_skipKey c ent.1 ent.2.1 ent.2.2)
    · exact ih (processEntry c e.1 e.2.1 e.2.2) ent h

theorem foldEntries_skip_all (c : BeringeiGetResultCollector)
    (es : List (Nat × Nat × List TimeValuePair))
    (h : ∀ ent ∈ es, skipKey c ent.1 ent.2.1) :
    foldEntries c es = c := by
  induction es with
  | nil => rfl
  | cons e rest ih =>
    have he : processEntry c e.1 e.2.1 e.2.2 = c :=
      processEntry_skip c e.1 e.2.1 e.2.2 (h e (List.mem_cons_self e rest))
    show foldEntries (processEntry c e.1 e.2.1 e.2.2) rest = c
    rw [he]
    exact ih (fun ent hent => h ent (List.mem_cons_of_mem e hent))

/-- C2: submitting the same (report, indices, replica) call a second time
leaves the collector state — merged sequences, attendance, disagreement
counters, everything `finalize` later reads — exactly as after the first
submission, and the repeated call returns `false`; the per-key attendance
bits enforce at-most-once accounting. -/
theorem addResults_duplicate_idempotent (c : BeringeiGetResultCollector)
    (r : GetDataResult) (idx : List Nat) (s : Nat) :
    addResults (addResults c r idx s).1 r idx s = ((addResults c r idx s).1, false) := by
  by_cases hd : c.done_
  · have h1 : addResults c r idx s = (c, false) := by unfold addResults; simp [hd]
    rw [h1]
    unfold addResults
    simp [hd]
  · by_cases hlen : idx.length = r.results.length
    · by_cases hrange : ∀ i ∈ idx, i < c.complete_.length
      · -- the well-formed case: the second call skips every entry
        have h1 : addResults c r idx s =
            (foldEntries c (callEntries { results := r, indices := idx, service := s }),
              decide (c.remainingKeys_ ≠ 0) &&
                decide ((foldEntries c
                  (callEntries { results := r, indices := idx, service := s })).remainingKeys_ = 0)) := by
          unfold addResults
          rw [if_neg hd, if_neg (fun hne => hne hlen), if_neg (not_not_intro hrange)]
        have hdoneE : (foldEntries c
            (callEntries { results := r, indices := idx, service := s })).done_ = false := by
          rw [(foldEntries_fields c _).1]
          simpa using hd
        have hlenE : (foldEntries c
            (callEntries { results := r, indices := idx, service := s })).complete_.length =
            c.complete_.length :=
          (foldEntries_fields c _).2.2.2.2.1
        have hrangeE : ∀ i ∈ idx,
            i < (foldEntries c
              (callEntries { results := r, indices := idx, service := s })).complete_.length := by
          rw [hlenE]; exact hrange
        have hskipAll : foldEntries
            (foldEntries c (callEntries { results := r, indices := idx, service := s }))
            (callEntries { results := r, indices := idx, service := s }) =
            foldEntries c (callEntries { results := r, indices := idx, service := s }) :=
          foldEntries_skip_all _ _ (foldEntries_establishes_skipKey c _)
        have h2 : addResults
            (foldEntries c (callEntries { results := r, indices := idx, service := s })) r idx s =
            (foldEntries c (callEntries { results := r, indices := idx, service := s }), false) := by
          unfold addResults
          rw [if_neg (by rw [hdoneE]; exact Bool.false_ne_true),
            if_neg (fun hne => hne hlen), if_neg (not_not_intro hrangeE)]
          dsimp only
          rw [hskipAll]
          by_cases hrem : (foldEntries c
              (callEntries { results := r, indices := idx, service := s })).remainingKeys_ = 0 <;>
            simp [hrem]
        rw [h1]
        exact h2
      · have h1 : addResults c r idx s = (c, false) := by
          unfold addResults
          simp [hd, hlen, hrange]
        rw [h1]
        unfold addResults
        simp [hd, hlen, hrange]
    · have h1 : addResults c r idx s = (c, false) := by
        unfold addResults
        simp [hd, hlen]
      rw [h1]
      unfold addResults
      simp [hd, hlen]

/-! ## Window discipline (towards C5) -/

theorem insertSample_mem (m : List TimeValuePair) (s q : TimeValuePair)
    (h : q ∈ (insertSample m s).1) : q ∈ m ∨ q = s := by
  induction m with
  | nil =>
    exact Or.inr (List.mem_singleton.mp h)
  | cons t rest ih =>
    simp only [insertSample] at h
    split at h
    · rcases List.mem_cons.mp h with h | h
      · exact Or.inr h
      · exact Or.inl h
    · split at h
      · split at h
        · exact Or.inl h
        · exact Or.inl h
      · dsimp only at h
        rcases List.mem_cons.mp h with h | h
        · exact Or.inl (by rw [h]; exact List.mem_cons_self t rest)
        · rcases ih h with h | h
          · exact Or.inl (List.mem_cons_of_mem t h)
          · exact Or.inr h

theorem foldInsert_mem (l m : List TimeValuePair) (q : TimeValuePair)
    (h : q ∈ l.foldl (fun a s => (insertSample a s).1) m) : q ∈ m ∨ q ∈ l := by
  induction l generalizing m with
  | nil => exact Or.inl h
  | cons s rest ih =>
    rcases ih (insertSample m s).1 h with h | h
    · rcases insertSample_mem m s q h with h | h
      · exact Or.inl h
      · exact Or.inr (by rw [h]; exact List.mem_cons_self s rest)
    · exact Or.inr (List.mem_cons_of_mem s h)

theorem mergeSeries_fst (b e : Int) (m inc : List TimeValuePair) :
    (mergeSeries b e m inc).1 =
      (inc.filter (inWindow b e)).foldl (fun a s => (insertSample a s).1) m := by
  unfold mergeSeries
  generalize (inc.filter (inWindow b e)) = l
  suffices haux : ∀ (l m : List TimeValuePair) (k : Nat),
      (l.foldl (fun acc s => ((insertSample acc.1 s).1, acc.2 + (insertSample acc.1 s).2))
        (m, k)).1 = l.foldl (fun a s => (insertSample a s).1) m by
    exact haux l m 0
  intro l
  induction l with
  | nil => intro m k; rfl
  | cons s rest ih => intro m k; exact ih (insertSample m s).1 (k + (insertSample m s).2)

theorem processEntry_result_mem (c : BeringeiGetResultCollector) (svc i j : Nat)
    (ser : List TimeValuePair) (q : TimeValuePair)
    (h : q ∈ (processEntry c svc i ser).result_.results.getD j []) :
    q ∈ c.result_.results.getD j [] ∨
      (q ∈ ser ∧ inWindow c.beginTime_ c.endTime_ q = true) := by
  unfold processEntry keyView at h
  dsimp only at h
  split at h
  · split at h
    · exact Or.inl h
    · dsimp only at h
      by_cases hij : i = j
      · subst hij
        by_cases hlt : i < c.result_.results.length
        · rw [list_getD_set_self _ _ _ _ hlt] at h
          rw [mergeSeries_fst] at h
          rcases foldInsert_mem _ _ q h with h | h
          · exact Or.inl h
          · have hm := List.mem_filter.mp h
            exact Or.inr ⟨hm.1, hm.2⟩
        · rw [List.set_eq_of_length_le (Nat.le_of_not_lt hlt)] at h
          exact Or.inl h
      · rw [list_getD_set_ne _ _ _ _ _ hij] at h
        exact Or.inl h
  · exact Or.inl h

theorem foldEntries_result_mem (c : BeringeiGetResultCollector)
    (es : List (Nat × Nat × List TimeValuePair)) (j : Nat) (q : TimeValuePair)
    (h : q ∈ (foldEntries c es).result_.results.getD j [])
    (hwin : ∀ q ∈ c.result_.results.getD j [],
      inWindow c.beginTime_ c.endTime_ q = true) :
    inWindow c.beginTime_ c.endTime_ q = true := by
  induction es generalizing c with
  | nil => exact hwin q h
  | cons ent rest ih =>
    have hfields := processEntry_fields c ent.1 ent.2.1 ent.2.2
    have := ih (processEntry c ent.1 ent.2.1 ent.2.2)
      (by simpa [foldEntries] using h)
      (fun q hq => by
        rw [hfields.2.2.1, hfields.2.2.2.1]
        rcases processEntry_result_mem c ent.1 ent.2.1 j ent.2.2 q hq with hq2 | hq2
        · exact hwin q hq2
        · exact hq2.2)
    rwa [hfields.2.2.1, hfields.2.2.2.1] at this

theorem addResults_result_mem (c : BeringeiGetResultCollector)
    (r : GetDataResult) (idx : List Nat) (s : Nat) (j : Nat) (q : TimeValuePair)
    (h : q ∈ (addResults c r idx s).1.result_.results.getD j [])
    (hwin : ∀ q ∈ c.result_.results.getD j [],
      inWindow c.beginTime_ c.endTime_ q = true) :
    inWindow c.beginTime_ c.endTime_ q = true := by
  unfold addResults at h
  split at h
  · exact hwin q h
  · split at h
    · exact hwin q h
    · split at h
      · exact hwin q h
      · exact foldEntries_result_mem c _ j q h hwin

theorem addResults_window_fields (c : BeringeiGetResultCollector)
    (r : GetDataResult) (idx : List Nat) (s : Nat) :
    (addResults c r idx s).1.beginTime_ = c.beginTime_ ∧
    (addResults c r idx s).1.endTime_ = c.endTime_ ∧
    (addResults c r idx s).1.done_ = c.done_ ∧
    (addResults c r idx s).1.numServices_ = c.numServices_ ∧
    (addResults c r idx s).1.complete_.length = c.complete_.length ∧
    (addResults c r idx s).1.result_.results.length = c.result_.results.length := by
  unfold addResults
  split
  · exact ⟨rfl, rfl, rfl, rfl, rfl, rfl⟩
  · split
    · exact ⟨rfl, rfl, rfl, rfl, rfl, rfl⟩
    · split
      · exact ⟨rfl, rfl, rfl, rfl, rfl, rfl⟩
      · have hf := foldEntries_fields c (callEntries { results := r, indices := idx, service := s })
        exact ⟨hf.2.2.1, hf.2.2.2.1, hf.1, hf.2.1, hf.2.2.2.2.1, hf.2.2.2.2.2⟩

theorem runCollector_window_fields (c : BeringeiGetResultCollector)
    (calls : List AddCall) :
    (runCollector c calls).beginTime_ = c.beginTime_ ∧
    (runCollector c calls).endTime_ = c.endTime_ ∧
    (runCollector c calls).done_ = c.done_ ∧
    (runCollector c calls).numServices_ = c.numServices_ ∧
    (runCollector c calls).complete_.length = c.complete_.length ∧
    (runCollector c calls).result_.results.length = c.result_.results.length := by
  induction calls generalizing c with
  | nil => exact ⟨rfl, rfl, rfl, rfl, rfl, rfl⟩
  | cons call rest ih =>
    have h1 := addResults_window_fields c call.results call.indices call.service
    have h2 := ih (addResults c call.results call.indices call.service).1
    exact ⟨h2.1.trans h1.1, h2.2.1.trans h1.2.1, h2.2.2.1.trans h1.2.2.1,
      h2.2.2.2.1.trans h1.2.2.2.1, h2.2.2.2.2.1.trans h1.2.2.2.2.1,
      h2.2.2.2.2.2.trans h1.2.2.2.2.2⟩

theorem runCollector_result_mem (c : BeringeiGetResultCollector)
    (calls : List AddCall) (j : Nat) (q : TimeValuePair)
    (h : q ∈ (runCollector c calls).result_.results.getD j [])
    (hwin : ∀ q ∈ c.result_.results.getD j [],
      inWindow c.beginTime_ c.endTime_ q = true) :
    inWindow c.beginTime_ c.endTime_ q = true := by
  induction calls generalizing c with
  | nil => exact hwin q h
  | cons call rest ih =>
    have hf := addResults_window_fields c call.results call.indices call.service
    have := ih (addResults c call.results call.indices call.service).1 h
      (fun q hq => by
        rw [hf.1, hf.2.1]
        exact addResults_result_mem c call.results call.indices call.service j q hq hwin)
    rwa [hf.1, hf.2.1] at this

theorem list_getD_replicate {α : Type} (a : α) (n j : Nat) :
    (List.replicate n a).getD j a = a := by
  induction n generalizing j with
  | zero => rfl
  | succ k ih =>
    cases j with
    | zero => rfl
    | succ m => exact ih m

theorem initCollector_eq_of_mk (keys services : Nat) (b e : Int)
    (c0 : BeringeiGetResultCollector)
    (h0 : mkCollector keys services b e = Except.ok c0) :
    c0 = initCollector keys services b e := by
  unfold mkCollector at h0
  split at h0
  · cases h0
  · cases h0
    rfl

/-- C5: no sample outside the query window `[begin, end)` ever appears in
any key's merged output, over any sequence of `addResults` calls from a
freshly constructed collector. -/
theorem merged_samples_in_window (keys services : Nat) (b e : Int)
    (c0 : BeringeiGetResultCollector)
    (h0 : mkCollector keys services b e = Except.ok c0)
    (calls : List AddCall) (i : Nat) (p : TimeValuePair)
    (hp : p ∈ (runCollector c0 calls).result_.results.getD i []) :
    b ≤ p.unixTime ∧ p.unixTime < e := by
  have hc0 : c0 = initCollector keys services b e := initCollector_eq_of_mk _ _ _ _ _ h0
  have hempty : ∀ q ∈ c0.result_.results.getD i [], inWindow c0.beginTime_ c0.endTime_ q = true := by
    intro q hq
    rw [hc0] at hq
    have : (initCollector keys services b e).result_.results.getD i [] = [] := by
      show (List.replicate keys ([] : List TimeValuePair)).getD i [] = []
      exact list_getD_replicate [] keys i
    rw [this] at hq
    cases hq
  have hwin := runCollector_result_mem c0 calls i p hp hempty
  rw [hc0] at hwin
  have : inWindow b e p = true := hwin
  unfold inWindow at this
  simp only [Bool.and_eq_true, decide_eq_true_eq] at this
  exact this

/-- Witness for C5 at a concrete input. -/
theorem merged_samples_in_window_witness :
    mkCollector 1 1 0 10 = Except.ok (initCollector 1 1 0 10) ∧
    TimeValuePair.mk 5 3 ∈ (runCollector (initCollector 1 1 0 10)
      [{ results := GetDataResult.mk [[TimeValuePair.mk 5 3, TimeValuePair.mk 20 7]],
         indices := [0], service := 0 }]).result_.results.getD 0 [] ∧
    (0 : Int) ≤ (TimeValuePair.mk 5 3).unixTime ∧ (TimeValuePair.mk 5 3).unixTime < 10 :=
  ⟨rfl, by decide,
    merged_samples_in_window 1 1 0 10 (initCollector 1 1 0 10) rfl
      [{ results := GetDataResult.mk [[TimeValuePair.mk 5 3, TimeValuePair.mk 20 7]],
         indices := [0], service := 0 }] 0 (TimeValuePair.mk 5 3) (by decide)⟩

/-! ## First-writer-wins and mismatch accounting (towards C4) -/

theorem insertSample_existing (m : List TimeValuePair) (s p : TimeValuePair)
    (hsorted : (m.map TimeValuePair.unixTime).Sorted (· < ·))
    (hp : p ∈ m) (ht : s.unixTime = p.unixTime) :
    insertSample m s = (m, if s.value = p.value then 0 else 1) := by
  induction m with
  | nil => cases hp
  | cons t rest ih =>
    have hsp : (∀ a ∈ rest, t.unixTime < a.unixTime) ∧
        (rest.map TimeValuePair.unixTime).Sorted (· < ·) := by
      simpa using hsorted
    rcases List.mem_cons.mp hp with hp | hp
    · subst hp
      simp only [insertSample]
      rw [if_neg (by omega), if_pos ht]
      by_cases hv : s.value = p.value <;> simp [hv]
    · have htp : t.unixTime < p.unixTime := hsp.1 p hp
      simp only [insertSample]
      rw [if_neg (by omega), if_neg (by omega)]
      rw [ih hsp.2 hp]

theorem mergeSeries_single_existing (b e : Int) (m : List TimeValuePair)
    (s p : TimeValuePair)
    (hsorted : (m.map TimeValuePair.unixTime).Sorted (· < ·))
    (hp : p ∈ m) (ht : s.unixTime = p.unixTime) (hw : inWindow b e s = true) :
    mergeSeries b e m [s] = (m, if s.value = p.value then 0 else 1) := by
  unfold mergeSeries
  have hfil : [s].filter (inWindow b e) = [s] := by
    simp [List.filter, hw]
  rw [hfil]
  show ((insertSample m s).1, 0 + (insertSample m s).2) = (m, _)
  rw [insertSample_existing m s p hsorted hp ht]
  simp

/-- C4: when an incoming replica's sample carries a timestamp already
present in the key's merged sequence, the merged sequences are left
exactly as they were (first-writer-wins) and, when the two values differ,
the disagreement counter indexed by the key's attendance bitmask as it was
before this replica's bit was added is incremented by one; when the values
agree, the disagreement table is unchanged as well. -/
theorem merge_mismatch_first_writer_wins (c : BeringeiGetResultCollector)
    (i svc : Nat) (s p : TimeValuePair)
    (hdone : c.done_ = false)
    (hi : i < c.complete_.length)
    (hcount : (c.complete_.getD i { count := 0, received := 0 }).count ≠ c.numServices_)
    (hbit : (c.complete_.getD i { count := 0, received := 0 }).received.testBit svc = false)
    (hsorted : ((c.result_.results.getD i []).map TimeValuePair.unixTime).Sorted (· < ·))
    (hp : p ∈ c.result_.results.getD i [])
    (ht : s.unixTime = p.unixTime)
    (hw : c.beginTime_ ≤ s.unixTime ∧ s.unixTime < c.endTime_) :
    (addResults c (GetDataResult.mk [[s]]) [i] svc).1.result_.results = c.result_.results ∧
    (addResults c (GetDataResult.mk [[s]]) [i] svc).1.mismatches_ =
      (if s.value = p.value then c.mismatches_
       else c.mismatches_.set
         (c.complete_.getD i { count := 0, received := 0 }).received
         (c.mismatches_.getD
           (c.complete_.getD i { count := 0, received := 0 }).received 0 + 1)) := by
  have h1 : (addResults c (GetDataResult.mk [[s]]) [i] svc).1 = processEntry c svc i [s] := by
    unfold addResults
    rw [if_neg (by rw [hdone]; exact Bool.false_ne_true)]
    rw [if_neg (by simp)]
    rw [if_neg (not_not_intro (fun j hj => by
      rw [List.mem_singleton.mp hj]; exact hi))]
    rfl
  have hwB : inWindow c.beginTime_ c.endTime_ s = true := by
    unfold inWindow
    simp [hw.1, hw.2]
  have hmd := mergeSeries_single_existing c.beginTime_ c.endTime_
    (c.result_.results.getD i []) s p hsorted hp ht hwB
  have hcond : ¬ ((c.complete_.getD i { count := 0, received := 0 }).count = c.numServices_ ∨
      (c.complete_.getD i { count := 0, received := 0 }).received.testBit svc = true) := by
    intro h
    rcases h with h | h
    · exact hcount h
    · rw [hbit] at h
      exact Bool.false_ne_true h
  have h2 : processEntry c svc i [s] =
      { beginTime_ := c.beginTime_
        endTime_ := c.endTime_
        numServices_ := c.numServices_
        remainingKeys_ :=
          if (c.complete_.getD i { count := 0, received := 0 }).count + 1 = c.numServices_
          then c.remainingKeys_ - 1 else c.remainingKeys_
        complete_ :=
          c.complete_.set i
            { count := (c.complete_.getD i { count := 0, received := 0 }).count + 1,
              received := (c.complete_.getD i { count := 0, received := 0 }).received ||| 2 ^ svc }
        drops_ := c.drops_
        mismatches_ :=
          c.mismatches_.set (c.complete_.getD i { count := 0, received := 0 }).received
            (c.mismatches_.getD (c.complete_.getD i { count := 0, received := 0 }).received 0 +
              (((if s.value = p.value then 0 else 1) : Nat) : Int))
        done_ := c.done_
        result_ :=
          { results := c.result_.results.set i (c.result_.results.getD i [])
            allSuccess := c.result_.allSuccess
            memoryEstimate := c.result_.memoryEstimate } } := by
    unfold processEntry keyView
    dsimp only
    rw [if_pos hi, if_neg hcond, hmd]
  rw [h1, h2]
  constructor
  · dsimp only
    rw [list_set_getD_self]
  · dsimp only
    by_cases hv : s.value = p.value
    · rw [if_pos hv, if_pos hv]
      simp only [Nat.cast_zero, add_zero]
      exact list_set_getD_self _ _ _
    · rw [if_neg hv, if_neg hv]
      simp only [Nat.cast_one]

/-- Witness for C4 at the spec's own example: replica 0 has already merged
the sample (t=5, v=1) for key 0; replica 1 now reports (t=5, v=2).  The
merged data keeps v=1 and the counter for bitmask 1 (replica 0 alone)
gains one. -/
theorem merge_mismatch_first_writer_wins_witness :
    (addResults (addResults (initCollector 1 2 0 10)
        (GetDataResult.mk [[TimeValuePair.mk 5 1]]) [0] 0).1
        (GetDataResult.mk [[TimeValuePair.mk 5 2]]) [0] 1).1.result_.results =
      (addResults (initCollector 1 2 0 10)
        (GetDataResult.mk [[TimeValuePair.mk 5 1]]) [0] 0).1.result_.results ∧
    (addResults (addResults (initCollector 1 2 0 10)
        (GetDataResult.mk [[TimeValuePair.mk 5 1]]) [0] 0).1
        (GetDataResult.mk [[TimeValuePair.mk 5 2]]) [0] 1).1.mismatches_ =
      (if (TimeValuePair.mk 5 2).value = (TimeValuePair.mk 5 1).value
       then (addResults (initCollector 1 2 0 10)
         (GetDataResult.mk [[TimeValuePair.mk 5 1]]) [0] 0).1.mismatches_
       else (addResults (initCollector 1 2 0 10)
         (GetDataResult.mk [[TimeValuePair.mk 5 1]]) [0] 0).1.mismatches_.set
         (((addResults (initCollector 1 2 0 10)
             (GetDataResult.mk [[TimeValuePair.mk 5 1]]) [0] 0).1.complete_.getD 0
             { count := 0, received := 0 }).received)
         ((addResults (initCollector 1 2 0 10)
             (GetDataResult.mk [[TimeValuePair.mk 5 1]]) [0] 0).1.mismatches_.getD
           ((addResults (initCollector 1 2 0 10)
             (GetDataResult.mk [[TimeValuePair.mk 5 1]]) [0] 0).1.complete_.getD 0
             { count := 0, received := 0 }).received 0 + 1)) :=
  merge_mismatch_first_writer_wins
    (addResults (initCollector 1 2 0 10) (GetDataResult.mk [[TimeValuePair.mk 5 1]]) [0] 0).1
    0 1 (TimeValuePair.mk 5 2) (TimeValuePair.mk 5 1)
    (by decide) (by decide) (by decide) (by decide) (by decide) (by decide)
    (by decide) (by decide)

/-! ## Attendance accounting (towards C9) -/

theorem list_getD_mem {α : Type} (l : List α) (i : Nat) (d : α)
    (h : i < l.length) : l.getD i d ∈ l := by
  induction l generalizing i with
  | nil => simp at h
  | cons x xs ih =>
    cases i with
    | zero => exact List.mem_cons_self x xs
    | succ n => exact List.mem_cons_of_mem x (ih n (by simpa using h))

theorem list_countP_set {α : Type} (p : α → Bool) (l : List α) (i : Nat)
    (a d : α) (hi : i < l.length) (hold : p (l.getD i d) = true) :
    (l.set i a).countP p + 1 = l.countP p + (if p a then 1 else 0) := by
  induction l generalizing i with
  | nil => simp at hi
  | cons x xs ih =>
    cases i with
    | zero =>
      simp only [List.getD_cons_zero] at hold
      simp only [List.set_cons_zero]
      rw [List.countP_cons, List.countP_cons, hold]
      by_cases ha : p a = true <;> simp [ha]
    | succ n =>
      simp only [List.getD_cons_succ] at hold
      simp only [List.set_cons_succ]
      rw [List.countP_cons, List.countP_cons]
      have hrec := ih n (by simpa using hi) hold
      by_cases hx : p x = true <;> simp [hx] <;> omega

theorem list_countP_replicate_pos {α : Type} (p : α → Bool) (a : α) (n : Nat)
    (h : p a = true) : (List.replicate n a).countP p = n := by
  induction n with
  | zero => rfl
  | succ k ih =>
    rw [List.replicate_succ, List.countP_cons, ih, h]
    simp

theorem processEntry_invs (c : BeringeiGetResultCollector) (svc i : Nat)
    (ser : List TimeValuePair) (h1 : countLeInv c) (h2 : remInv c) :
    countLeInv (processEntry c svc i ser) ∧ remInv (processEntry c svc i ser) := by
  unfold processEntry keyView
  dsimp only
  split
  · rename_i hi
    split
    · exact ⟨h1, h2⟩
    · rename_i hcond
      have hA : (c.complete_.getD i { count := 0, received := 0 }).count ≠ c.numServices_ :=
        fun hh => hcond (Or.inl hh)
      have hmem : c.complete_.getD i { count := 0, received := 0 } ∈ c.complete_ :=
        list_getD_mem c.complete_ i _ hi
      have hleOld := h1 _ hmem
      constructor
      · unfold countLeInv
        dsimp only
        intro ks hks
        rcases List.mem_or_eq_of_mem_set hks with hks | hks
        · exact h1 ks hks
        · rw [hks]
          dsimp only
          omega
      · unfold remInv at h2 ⊢
        dsimp only
        have hset := list_countP_set (fun ks => decide (ks.count ≠ c.numServices_))
          c.complete_ i
          { count := (c.complete_.getD i { count := 0, received := 0 }).count + 1,
            received := (c.complete_.getD i { count := 0, received := 0 }).received ||| 2 ^ svc }
          { count := 0, received := 0 } hi (decide_eq_true hA)
        have hpos : 0 < c.complete_.countP (fun ks => decide (ks.count ≠ c.numServices_)) :=
          List.countP_pos_iff.mpr ⟨_, hmem, decide_eq_true hA⟩
        have hbeta : ((fun ks => decide (ks.count ≠ c.numServices_))
            ({ count := (c.complete_.getD i { count := 0, received := 0 }).count + 1,
               received := (c.complete_.getD i { count := 0, received := 0 }).received |||
                 2 ^ svc } : KeyStats)) =
            decide ((c.complete_.getD i { count := 0, received := 0 }).count + 1 ≠
              c.numServices_) := rfl
        rw [hbeta] at hset
        by_cases hc2 :
            (c.complete_.getD i { count := 0, received := 0 }).count + 1 = c.numServices_
        · rw [if_pos hc2]
          rw [decide_eq_false (not_not_intro hc2)] at hset
          rw [if_neg Bool.false_ne_true] at hset
          omega
        · rw [if_neg hc2]
          rw [decide_eq_true hc2] at hset
          rw [if_pos rfl] at hset
          omega
  · exact ⟨h1, h2⟩

theorem foldEntries_invs (c : BeringeiGetResultCollector)
    (es : List (Nat × Nat × List TimeValuePair)) (h1 : countLeInv c) (h2 : remInv c) :
    countLeInv (foldEntries c es) ∧ remInv (foldEntries c es) := by
  induction es generalizing c with
  | nil => exact ⟨h1, h2⟩
  | cons ent rest ih =>
    have hp := processEntry_invs c ent.1 ent.2.1 ent.2.2 h1 h2
    exact ih (processEntry c ent.1 ent.2.1 ent.2.2) hp.1 hp.2

theorem addResults_invs (c : BeringeiGetResultCollector) (r : GetDataResult)
    (idx : List Nat) (s : Nat) (h1 : countLeInv c) (h2 : remInv c) :
    countLeInv (addResults c r idx s).1 ∧ remInv (addResults c r idx s).1 := by
  unfold addResults
  split
  · exact ⟨h1, h2⟩
  · split
    · exact ⟨h1, h2⟩
    · split
      · exact ⟨h1, h2⟩
      · exact foldEntries_invs c _ h1 h2

theorem runCollector_invs (c : BeringeiGetResultCollector) (calls : List AddCall)
    (h1 : countLeInv c) (h2 : remInv c) :
    countLeInv (runCollector c calls) ∧ remInv (runCollector c calls) := by
  induction calls generalizing c with
  | nil => exact ⟨h1, h2⟩
  | cons call rest ih =>
    have hp := addResults_invs c call.results call.indices call.service h1 h2
    exact ih (addResults c call.results call.indices call.service).1 hp.1 hp.2

theorem initCollector_invs (keys services : Nat) (b e : Int) (hs : 0 < services) :
    countLeInv (initCollector keys services b e) ∧
      remInv (initCollector keys services b e) := by
  constructor
  · intro ks hks
    rw [List.eq_of_mem_replicate hks]
    exact Nat.zero_le _
  · unfold remInv
    show keys = (List.replicate keys { count := 0, received := 0 : KeyStats }).countP
      (fun ks => decide (ks.count ≠ (initCollector keys services b e).numServices_))
    have hd : (decide (({ count := 0, received := 0 : KeyStats }).count ≠
        (initCollector keys services b e).numServices_)) = true := by
      apply decide_eq_true
      show (0 : Nat) ≠ services
      omega
    rw [list_countP_replicate_pos
      (fun ks : KeyStats => decide (ks.count ≠ (initCollector keys services b e).numServices_))
      ({ count := 0, received := 0 } : KeyStats) keys hd]

theorem computeDrops_eq_countP (c : BeringeiGetResultCollector) :
    computeDrops c = (List.range c.numServices_).map
      (fun s => ((c.complete_.countP
        (fun ks => ks.received.testBit s = false)) : Int)) := by
  unfold computeDrops
  simp only [List.countP_eq_length_filter]

/-- C9: `finalize` computes, for each replica, a loss count equal to the
number of keys whose attendance bit for that replica is unset; when
completeness is demanded and some key is not fully attended, it fails with
an `IncompletenessError` pairing each replica name with its missing-key
count; otherwise it returns a result whose `allSuccess` flag is set exactly
when every key reached full attendance. -/
theorem finalize_loss_and_completeness (keys services : Nat) (b e : Int)
    (c0 : BeringeiGetResultCollector)
    (h0 : mkCollector keys services b e = Except.ok c0) (hs : 0 < services)
    (calls : List AddCall) (validate : Bool) (names : List String) :
    (finalize (runCollector c0 calls) validate names).1.drops_ =
      (List.range services).map
        (fun s => (((runCollector c0 calls).complete_.countP
          (fun ks => ks.received.testBit s = false)) : Int)) ∧
    (finalize (runCollector c0 calls) validate names).2.map BeringeiGetResult.allSuccess =
      (if validate = true ∧
          ¬ (∀ ks ∈ (runCollector c0 calls).complete_, ks.count = services)
       then Except.error (CollectorError.IncompletenessError (names.zip
         ((List.range services).map
           (fun s => (((runCollector c0 calls).complete_.countP
             (fun ks => ks.received.testBit s = false)) : Int)))))
       else Except.ok (decide
         (∀ ks ∈ (runCollector c0 calls).complete_, ks.count = services))) := by
  have hc0 := initCollector_eq_of_mk keys services b e c0 h0
  have hfields := runCollector_window_fields c0 calls
  have hdone : (runCollector c0 calls).done_ = false := by
    rw [hfields.2.2.1, hc0]
    rfl
  have hns : (runCollector c0 calls).numServices_ = services := by
    rw [hfields.2.2.2.1, hc0]
    rfl
  have hinit := initCollector_invs keys services b e hs
  have hinvs := runCollector_invs c0 calls
    (by rw [hc0]; exact hinit.1) (by rw [hc0]; exact hinit.2)
  have hiff : (runCollector c0 calls).remainingKeys_ = 0 ↔
      ∀ ks ∈ (runCollector c0 calls).complete_, ks.count = services := by
    have h2 := hinvs.2
    unfold remInv at h2
    rw [hns] at h2
    rw [h2, List.countP_eq_zero]
    constructor
    · intro hall ks hks
      have := hall ks hks
      simpa using this
    · intro hall ks hks
      simp [hall ks hks]
  have hdropsEq := computeDrops_eq_countP (runCollector c0 calls)
  rw [hns] at hdropsEq
  unfold finalize
  rw [if_neg (by rw [hdone]; exact Bool.false_ne_true)]
  dsimp only
  constructor
  · split
    · exact hdropsEq
    · exact hdropsEq
  · by_cases hcondP : validate = true ∧
        ¬ ∀ ks ∈ (runCollector c0 calls).complete_, ks.count = services
    · rw [if_pos hcondP]
      have hb : (validate &&
          !decide ((runCollector c0 calls).remainingKeys_ = 0)) = true := by
        rcases hcondP with ⟨hv, hnall⟩
        rw [hv]
        have hdec : decide ((runCollector c0 calls).remainingKeys_ = 0) = false :=
          decide_eq_false (fun hr => hnall (hiff.mp hr))
        rw [hdec]
        rfl
      rw [if_pos hb]
      dsimp only [Except.map]
      rw [hdropsEq]
    · rw [if_neg hcondP]
      have hb : (validate &&
          !decide ((runCollector c0 calls).remainingKeys_ = 0)) = false := by
        by_cases hv : validate = true
        · have hall : ∀ ks ∈ (runCollector c0 calls).complete_, ks.count = services := by
            by_contra hnall
            exact hcondP ⟨hv, hnall⟩
          have hdec : decide ((runCollector c0 calls).remainingKeys_ = 0) = true :=
            decide_eq_true (hiff.mpr hall)
          rw [hv, hdec]
          rfl
        · have hvf : validate = false := by
            cases validate
            · rfl
            · exact absurd rfl hv
          rw [hvf]
          rfl
      rw [if_neg (by rw [hb]; exact Bool.false_ne_true)]
      dsimp only [Except.map]
      congr 1
      rw [decide_eq_decide]
      exact hiff

/-- Witness for C9: one key, two replicas, only replica 0 reports; with
completeness demanded, `finalize` fails carrying the loss counts (0 for
replica 0, 1 for replica 1). -/
theorem finalize_loss_and_completeness_witness :
    (finalize (runCollector (initCollector 1 2 0 10)
        [{ results := GetDataResult.mk [[TimeValuePair.mk 5 1]],
           indices := [0], service := 0 }]) true ["a", "b"]).1.drops_ =
      (List.range 2).map
        (fun s => (((runCollector (initCollector 1 2 0 10)
          [{ results := GetDataResult.mk [[TimeValuePair.mk 5 1]],
             indices := [0], service := 0 }]).complete_.countP
          (fun ks => ks.received.testBit s = false)) : Int)) ∧
    (finalize (runCollector (initCollector 1 2 0 10)
        [{ results := GetDataResult.mk [[TimeValuePair.mk 5 1]],
           indices := [0], service := 0 }]) true ["a", "b"]).2.map
        BeringeiGetResult.allSuccess =
      (if (true : Bool) = true ∧
          ¬ (∀ ks ∈ (runCollector (initCollector 1 2 0 10)
            [{ results := GetDataResult.mk [[TimeValuePair.mk 5 1]],
               indices := [0], service := 0 }]).complete_, ks.count = 2)
       then Except.error (CollectorError.IncompletenessError ((["a", "b"]).zip
         ((List.range 2).map
           (fun s => (((runCollector (initCollector 1 2 0 10)
             [{ results := GetDataResult.mk [[TimeValuePair.mk 5 1]],
                indices := [0], service := 0 }]).complete_.countP
             (fun ks => ks.received.testBit s = false)) : Int)))))
       else Except.ok (decide
         (∀ ks ∈ (runCollector (initCollector 1 2 0 10)
           [{ results := GetDataResult.mk [[TimeValuePair.mk 5 1]],
              indices := [0], service := 0 }]).complete_, ks.count = 2))) :=
  finalize_loss_and_completeness 1 2 0 10 (initCollector 1 2 0 10) rfl (by decide)
    [{ results := GetDataResult.mk [[TimeValuePair.mk 5 1]],
       indices := [0], service := 0 }] true ["a", "b"]

/-! ## Merge algebra (towards C3) -/

theorem insertSample_times_mem (m : List TimeValuePair) (s : TimeValuePair) (t : Int) :
    t ∈ ((insertSample m s).1).map TimeValuePair.unixTime ↔
      t ∈ m.map TimeValuePair.unixTime ∨ t = s.unixTime := by
  induction m with
  | nil => simp [insertSample]
  | cons x rest ih =>
    simp only [insertSample]
    by_cases h1 : s.unixTime < x.unixTime
    · rw [if_pos h1]
      dsimp only
      simp only [List.map_cons, List.mem_cons]
      tauto
    · rw [if_neg h1]
      by_cases h2 : s.unixTime = x.unixTime
      · rw [if_pos h2]
        have hfst : (if s.value = x.value
            then (x :: rest, 0) else (x :: rest, 1)).1 = x :: rest := by
          split <;> rfl
        rw [hfst]
        simp only [List.map_cons, List.mem_cons]
        constructor
        · exact Or.inl
        · intro h
          rcases h with h | h
          · exact h
          · rw [h, h2]
            exact Or.inl rfl
      · rw [if_neg h2]
        dsimp only
        simp only [List.map_cons, List.mem_cons]
        rw [ih]
        tauto

theorem insertSample_times_sorted (m : List TimeValuePair) (s : TimeValuePair)
    (h : (m.map TimeValuePair.unixTime).Sorted (· < ·)) :
    (((insertSample m s).1).map TimeValuePair.unixTime).Sorted (· < ·) := by
  induction m with
  | nil => simp [insertSample]
  | cons x rest ih =>
    have hsp : (∀ a ∈ rest, x.unixTime < a.unixTime) ∧
        (rest.map TimeValuePair.unixTime).Sorted (· < ·) := by simpa using h
    simp only [insertSample]
    by_cases h1 : s.unixTime < x.unixTime
    · rw [if_pos h1]
      dsimp only
      simp only [List.map_cons, List.sorted_cons, List.mem_cons, List.mem_map]
      refine ⟨?_, by simpa using h⟩
      intro t ht
      rcases ht with ht | ht
      · rw [ht]
        exact h1
      · rcases ht with ⟨a, ha, hat⟩
        rw [← hat]
        exact lt_trans h1 (hsp.1 a ha)
    · rw [if_neg h1]
      by_cases h2 : s.unixTime = x.unixTime
      · rw [if_pos h2]
        have hfst : (if s.value = x.value
            then (x :: rest, 0) else (x :: rest, 1)).1 = x :: rest := by
          split <;> rfl
        rw [hfst]
        exact h
      · rw [if_neg h2]
        dsimp only
        have hxs : x.unixTime < s.unixTime := by omega
        simp only [List.map_cons, List.sorted_cons]
        constructor
        · intro t ht
          rcases List.mem_map.mp ht with ⟨a, ha, hat⟩
          have hta : a.unixTime ∈ ((insertSample rest s).1).map TimeValuePair.unixTime :=
            List.mem_map_of_mem TimeValuePair.unixTime ha
          rcases (insertSample_times_mem rest s a.unixTime).mp hta with hm | hm
          · rcases List.mem_map.mp hm with ⟨a2, ha2, ha2t⟩
            rw [← hat, ← ha2t]
            exact hsp.1 a2 ha2
          · rw [← hat, hm]
            exact hxs
        · exact ih hsp.2

theorem insertSample_sublist (m : List TimeValuePair) (s : TimeValuePair) :
    m.Sublist (insertSample m s).1 := by
  induction m with
  | nil => simp [insertSample]
  | cons x rest ih =>
    simp only [insertSample]
    by_cases h1 : s.unixTime < x.unixTime
    · rw [if_pos h1]
      exact List.sublist_cons_self s (x :: rest)
    · rw [if_neg h1]
      by_cases h2 : s.unixTime = x.unixTime
      · rw [if_pos h2]
        have hfst : (if s.value = x.value
            then (x :: rest, 0) else (x :: rest, 1)).1 = x :: rest := by
          split <;> rfl
        rw [hfst]
      · rw [if_neg h2]
        exact List.Sublist.cons₂ x ih

theorem foldInsert_times_mem (l m : List TimeValuePair) (t : Int) :
    t ∈ (l.foldl (fun a s => (insertSample a s).1) m).map TimeValuePair.unixTime ↔
      t ∈ m.map TimeValuePair.unixTime ∨ t ∈ l.map TimeValuePair.unixTime := by
  induction l generalizing m with
  | nil => simp
  | cons s rest ih =>
    show t ∈ (rest.foldl (fun a s => (insertSample a s).1)
      (insertSample m s).1).map TimeValuePair.unixTime ↔ _
    rw [ih]
    rw [insertSample_times_mem]
    simp only [List.map_cons, List.mem_cons]
    tauto

theorem foldInsert_sorted (l m : List TimeValuePair)
    (h : (m.map TimeValuePair.unixTime).Sorted (· < ·)) :
    ((l.foldl (fun a s => (insertSample a s).1) m).map TimeValuePair.unixTime).Sorted
      (· < ·) := by
  induction l generalizing m with
  | nil => exact h
  | cons s rest ih => exact ih (insertSample m s).1 (insertSample_times_sorted m s h)

theorem foldInsert_sublist (l m : List TimeValuePair) :
    m.Sublist (l.foldl (fun a s => (insertSample a s).1) m) := by
  induction l generalizing m with
  | nil => exact List.Sublist.refl m
  | cons s rest ih =>
    exact List.Sublist.trans (insertSample_sublist m s) (ih (insertSample m s).1)

theorem mergeSeries_times_mem (b e : Int) (m inc : List TimeValuePair) (t : Int) :
    t ∈ ((mergeSeries b e m inc).1).map TimeValuePair.unixTime ↔
      t ∈ m.map TimeValuePair.unixTime ∨
        t ∈ (inc.filter (inWindow b e)).map TimeValuePair.unixTime := by
  rw [mergeSeries_fst]
  exact foldInsert_times_mem _ m t

theorem mergeSeries_times_sorted (b e : Int) (m inc : List TimeValuePair)
    (h : (m.map TimeValuePair.unixTime).Sorted (· < ·)) :
    (((mergeSeries b e m inc).1).map TimeValuePair.unixTime).Sorted (· < ·) := by
  rw [mergeSeries_fst]
  exact foldInsert_sorted _ m h

theorem mergeSeries_sublist (b e : Int) (m inc : List TimeValuePair) :
    m.Sublist (mergeSeries b e m inc).1 := by
  rw [mergeSeries_fst]
  exact foldInsert_sublist _ m

/-! ## Sortedness and growth of merged sequences along runs -/

theorem processEntry_sorted_inv (c : BeringeiGetResultCollector) (svc i : Nat)
    (ser : List TimeValuePair)
    (h : ∀ j : Nat, ((c.result_.results.getD j []).map TimeValuePair.unixTime).Sorted (· < ·)) :
    ∀ j : Nat, (((processEntry c svc i ser).result_.results.getD j []).map
      TimeValuePair.unixTime).Sorted (· < ·) := by
  intro j
  unfold processEntry keyView
  dsimp only
  split
  · split
    · exact h j
    · dsimp only
      by_cases hij : i = j
      · subst hij
        by_cases hlt : i < c.result_.results.length
        · rw [list_getD_set_self _ _ _ _ hlt]
          exact mergeSeries_times_sorted _ _ _ ser (h i)
        · rw [List.set_eq_of_length_le (Nat.le_of_not_lt hlt)]
          exact h i
      · rw [list_getD_set_ne _ _ _ _ _ hij]
        exact h j
  · exact h j

theorem foldEntries_sorted_inv (c : BeringeiGetResultCollector)
    (es : List (Nat × Nat × List TimeValuePair))
    (h : ∀ j : Nat, ((c.result_.results.getD j []).map TimeValuePair.unixTime).Sorted (· < ·)) :
    ∀ j : Nat, (((foldEntries c es).result_.results.getD j []).map
      TimeValuePair.unixTime).Sorted (· < ·) := by
  induction es generalizing c with
  | nil => exact h
  | cons ent rest ih =>
    exact ih (processEntry c ent.1 ent.2.1 ent.2.2)
      (processEntry_sorted_inv c ent.1 ent.2.1 ent.2.2 h)

theorem addResults_sorted_inv (c : BeringeiGetResultCollector) (r : GetDataResult)
    (idx : List Nat) (s : Nat)
    (h : ∀ j : Nat, ((c.result_.results.getD j []).map TimeValuePair.unixTime).Sorted (· < ·)) :
    ∀ j : Nat, (((addResults c r idx s).1.result_.results.getD j []).map
      TimeValuePair.unixTime).Sorted (· < ·) := by
  unfold addResults
  split
  · exact h
  · split
    · exact h
    · split
      · exact h
      · exact foldEntries_sorted_inv c _ h

theorem runCollector_sorted_inv (c : BeringeiGetResultCollector) (calls : List AddCall)
    (h : ∀ j : Nat, ((c.result_.results.getD j []).map TimeValuePair.unixTime).Sorted (· < ·)) :
    ∀ j : Nat, (((runCollector c calls).result_.results.getD j []).map
      TimeValuePair.unixTime).Sorted (· < ·) := by
  induction calls generalizing c with
  | nil => exact h
  | cons call rest ih =>
    exact ih (addResults c call.results call.indices call.service).1
      (addResults_sorted_inv c call.results call.indices call.service h)

theorem initCollector_getD_empty (keys services : Nat) (b e : Int) (j : Nat) :
    (initCollector keys services b e).result_.results.getD j [] = [] := by
  show (List.replicate keys ([] : List TimeValuePair)).getD j [] = []
  exact list_getD_replicate [] keys j

theorem processEntry_getD_sublist (c : BeringeiGetResultCollector) (svc i : Nat)
    (ser : List TimeValuePair) (j : Nat) :
    (c.result_.results.getD j []).Sublist
      ((processEntry c svc i ser).result_.results.getD j []) := by
  unfold processEntry keyView
  dsimp only
  split
  · split
    · exact List.Sublist.refl _
    · dsimp only
      by_cases hij : i = j
      · subst hij
        by_cases hlt : i < c.result_.results.length
        · rw [list_getD_set_self _ _ _ _ hlt]
          exact mergeSeries_sublist _ _ _ ser
        · rw [List.set_eq_of_length_le (Nat.le_of_not_lt hlt)]
      · rw [list_getD_set_ne _ _ _ _ _ hij]
  · exact List.Sublist.refl _

theorem foldEntries_getD_sublist (c : BeringeiGetResultCollector)
    (es : List (Nat × Nat × List TimeValuePair)) (j : Nat) :
    (c.result_.results.getD j []).Sublist
      ((foldEntries c es).result_.results.getD j []) := by
  induction es generalizing c with
  | nil => exact List.Sublist.refl _
  | cons ent rest ih =>
    exact List.Sublist.trans (processEntry_getD_sublist c ent.1 ent.2.1 ent.2.2 j)
      (ih (processEntry c ent.1 ent.2.1 ent.2.2))

theorem addResults_getD_sublist (c : BeringeiGetResultCollector) (r : GetDataResult)
    (idx : List Nat) (s : Nat) (j : Nat) :
    (c.result_.results.getD j []).Sublist
      ((addResults c r idx s).1.result_.results.getD j []) := by
  unfold addResults
  split
  · exact List.Sublist.refl _
  · split
    · exact List.Sublist.refl _
    · split
      · exact List.Sublist.refl _
      · exact foldEntries_getD_sublist c _ j

theorem runCollector_getD_sublist (c : BeringeiGetResultCollector)
    (calls : List AddCall) (j : Nat) :
    (c.result_.results.getD j []).Sublist
      ((runCollector c calls).result_.results.getD j []) := by
  induction calls generalizing c with
  | nil => exact List.Sublist.refl _
  | cons call rest ih =>
    exact List.Sublist.trans
      (addResults_getD_sublist c call.results call.indices call.service j)
      (ih (addResults c call.results call.indices call.service).1)

theorem runCollector_append (c : BeringeiGetResultCollector)
    (pre suf : List AddCall) :
    runCollector c (pre ++ suf) = runCollector (runCollector c pre) suf := by
  unfold runCollector
  exact List.foldl_append _ _ pre suf

/-! ## Per-key projection of the entry fold -/

theorem keyView_processEntry (c : BeringeiGetResultCollector) (svc j : Nat)
    (ser : List TimeValuePair) (i : Nat)
    (hwf : c.result_.results.length = c.complete_.length) :
    keyView (processEntry c svc j ser) i =
      if j = i ∧ i < c.complete_.length
      then stepKey c.numServices_ c.beginTime_ c.endTime_ (keyView c i) svc ser
      else keyView c i := by
  by_cases hj : j < c.complete_.length
  · by_cases hcond :
        (c.complete_.getD j { count := 0, received := 0 }).count = c.numServices_ ∨
        (c.complete_.getD j { count := 0, received := 0 }).received.testBit svc = true
    · have hpe : processEntry c svc j ser = c := by
        unfold processEntry keyView
        dsimp only
        rw [if_pos hj, if_pos hcond]
      rw [hpe]
      by_cases hij : j = i ∧ i < c.complete_.length
      · rw [if_pos hij]
        rcases hij with ⟨hji, hilen⟩
        subst hji
        unfold stepKey keyView
        dsimp only
        rw [if_pos hcond]
      · rw [if_neg hij]
    · by_cases hij : j = i ∧ i < c.complete_.length
      · rcases hij with ⟨hji, hilen⟩
        subst hji
        rw [if_pos ⟨rfl, hj⟩]
        unfold processEntry stepKey keyView
        dsimp only
        rw [if_pos hj, if_neg hcond]
        dsimp only
        rw [list_getD_set_self _ _ _ _ hj, list_getD_set_self _ _ _ _ (by omega)]
        rw [if_neg hcond]
      · have hne : j ≠ i := fun h => hij ⟨h, h ▸ hj⟩
        rw [if_neg hij]
        unfold processEntry keyView
        dsimp only
        rw [if_pos hj, if_neg hcond]
        dsimp only
        rw [list_getD_set_ne _ _ _ _ _ hne, list_getD_set_ne _ _ _ _ _ hne]
  · have hpe : processEntry c svc j ser = c := by
      unfold processEntry
      dsimp only
      rw [if_neg hj]
    rw [hpe, if_neg (by rintro ⟨hji, hilen⟩; exact hj (hji.symm ▸ hilen))]

theorem keyView_foldEntries (c : BeringeiGetResultCollector)
    (es : List (Nat × Nat × List TimeValuePair)) (i : Nat)
    (hwf : c.result_.results.length = c.complete_.length)
    (hi : i < c.complete_.length) :
    keyView (foldEntries c es) i =
      foldKey c.numServices_ c.beginTime_ c.endTime_ (keyView c i) (keyEntries i es) := by
  induction es generalizing c with
  | nil => rfl
  | cons ent rest ih =>
    have hf := processEntry_fields c ent.1 ent.2.1 ent.2.2
    have hwf2 : (processEntry c ent.1 ent.2.1 ent.2.2).result_.results.length =
        (processEntry c ent.1 ent.2.1 ent.2.2).complete_.length := by
      rw [hf.2.2.2.2.2, hf.2.2.2.2.1, hwf]
    have hi2 : i < (processEntry c ent.1 ent.2.1 ent.2.2).complete_.length := by
      rw [hf.2.2.2.2.1]
      exact hi
    have hstep := keyView_processEntry c ent.1 ent.2.1 ent.2.2 i hwf
    show keyView (foldEntries (processEntry c ent.1 ent.2.1 ent.2.2) rest) i = _
    rw [ih (processEntry c ent.1 ent.2.1 ent.2.2) hwf2 hi2]
    rw [hf.2.1, hf.2.2.1, hf.2.2.2.1]
    rw [hstep]
    by_cases hkey : ent.2.1 = i
    · rw [if_pos ⟨hkey, hi⟩]
      have hke : keyEntries i (ent :: rest) = (ent.1, ent.2.2) :: keyEntries i rest := by
        unfold keyEntries
        rw [List.filter_cons]
        rw [if_pos (decide_eq_true hkey)]
        rfl
      rw [hke]
      rfl
    · rw [if_neg (fun hh => hkey hh.1)]
      have hke : keyEntries i (ent :: rest) = keyEntries i rest := by
        unfold keyEntries
        rw [List.filter_cons]
        rw [if_neg (by rw [decide_eq_false hkey]; exact Bool.false_ne_true)]
      rw [hke]

theorem runCollector_eq_foldEntries (keys services : Nat)
    (c : BeringeiGetResultCollector) (calls : List AddCall)
    (hdone : c.done_ = false)
    (hkeys : c.complete_.length = keys)
    (hgood : ∀ call ∈ calls, goodCall keys services call) :
    runCollector c calls = foldEntries c (entriesOfCalls calls) := by
  induction calls generalizing c with
  | nil => rfl
  | cons call rest ih =>
    have hg := hgood call (List.mem_cons_self call rest)
    have h1 : (addResults c call.results call.indices call.service).1 =
        foldEntries c (callEntries call) := by
      unfold addResults
      rw [if_neg (by rw [hdone]; exact Bool.false_ne_true),
        if_neg (fun hne => hne hg.1),
        if_neg (not_not_intro (fun j hj => by rw [hkeys]; exact hg.2.1 j hj))]
    have hff := foldEntries_fields c (callEntries call)
    show runCollector (addResults c call.results call.indices call.service).1 rest = _
    rw [h1]
    rw [ih (foldEntries c (callEntries call))
      (by rw [hff.1]; exact hdone)
      (by rw [hff.2.2.2.2.1]; exact hkeys)
      (fun cl hcl => hgood cl (List.mem_cons_of_mem call hcl))]
    show foldEntries (foldEntries c (callEntries call)) (entriesOfCalls rest) =
      foldEntries c (entriesOfCalls (call :: rest))
    have hent : entriesOfCalls (call :: rest) =
        callEntries call ++ entriesOfCalls rest := by
      unfold entriesOfCalls
      rw [List.map_cons, List.flatten_cons]
    rw [hent]
    unfold foldEntries
    rw [List.foldl_append]

theorem foldKey_times_mem (ns : Nat) (b e : Int)
    (L : List (Nat × List TimeValuePair)) (v : KeyView) (t : Int)
    (hnodup : (L.map Prod.fst).Nodup)
    (hub : v.stats.count + L.length ≤ ns)
    (hfresh : ∀ p ∈ L, v.stats.received.testBit p.1 = false) :
    t ∈ ((foldKey ns b e v L).merged).map TimeValuePair.unixTime ↔
      t ∈ v.merged.map TimeValuePair.unixTime ∨
        ∃ p ∈ L, t ∈ (p.2.filter (inWindow b e)).map TimeValuePair.unixTime := by
  induction L generalizing v with
  | nil => simp [foldKey]
  | cons p rest ih =>
    have hnc : p.1 ∉ rest.map Prod.fst ∧ (rest.map Prod.fst).Nodup := by
      have h2 : (p.1 :: rest.map Prod.fst).Nodup := by simpa using hnodup
      exact ⟨(List.nodup_cons.mp h2).1, (List.nodup_cons.mp h2).2⟩
    have hub1 : v.stats.count + (rest.length + 1) ≤ ns := by simpa using hub
    have hcm : v.stats.count ≠ ns := by omega
    have hbit : v.stats.received.testBit p.1 = false :=
      hfresh p (List.mem_cons_self p rest)
    have hstep : stepKey ns b e v p.1 p.2 =
        { stats := { count := v.stats.count + 1, received := v.stats.received ||| 2 ^ p.1 }, merged := (mergeSeries b e v.merged p.2).1 } := by
      unfold stepKey
      rw [if_neg (fun hh => hh.elim hcm
        (fun hb => by rw [hbit] at hb; exact Bool.false_ne_true hb))]
    have hub2 : ({ stats := { count := v.stats.count + 1, received := v.stats.received ||| 2 ^ p.1 }, merged := (mergeSeries b e v.merged p.2).1 } : KeyView).stats.count + rest.length ≤ ns := by
      show v.stats.count + 1 + rest.length ≤ ns
      omega
    have hfresh2 : ∀ q ∈ rest,
        ({ stats := { count := v.stats.count + 1, received := v.stats.received ||| 2 ^ p.1 }, merged := (mergeSeries b e v.merged p.2).1 } : KeyView).stats.received.testBit q.1 = false := by
      intro q hq
      show (v.stats.received ||| 2 ^ p.1).testBit q.1 = false
      rw [Nat.testBit_or, hfresh q (List.mem_cons_of_mem p hq), Nat.testBit_two_pow]
      simp only [Bool.false_or]
      apply decide_eq_false
      intro hpq
      apply hnc.1
      rw [hpq]
      exact List.mem_map_of_mem Prod.fst hq
    have hih := ih ({ stats := { count := v.stats.count + 1, received := v.stats.received ||| 2 ^ p.1 }, merged := (mergeSeries b e v.merged p.2).1 } : KeyView) hnc.2 hub2 hfresh2
    show t ∈ ((foldKey ns b e (stepKey ns b e v p.1 p.2) rest).merged).map
      TimeValuePair.unixTime ↔ _
    rw [hstep, hih]
    show t ∈ ((mergeSeries b e v.merged p.2).1).map TimeValuePair.unixTime ∨ _ ↔ _
    rw [mergeSeries_times_mem]
    constructor
    · intro h
      rcases h with (h | h) | h
      · exact Or.inl h
      · exact Or.inr ⟨p, List.mem_cons_self p rest, h⟩
      · rcases h with ⟨q, hq, hqt⟩
        exact Or.inr ⟨q, List.mem_cons_of_mem p hq, hqt⟩
    · intro h
      rcases h with h | ⟨q, hq, hqt⟩
      · exact Or.inl (Or.inl h)
      · rcases List.mem_cons.mp hq with hq | hq
        · subst hq
          exact Or.inl (Or.inr hqt)
        · exact Or.inr ⟨q, hq, hqt⟩

/-! ## Permutation and uniqueness helpers (towards C3) -/

theorem sorted_lt_eq_of_mem_iff (l1 l2 : List Int)
    (h1 : l1.Sorted (· < ·)) (h2 : l2.Sorted (· < ·))
    (hmem : ∀ t, t ∈ l1 ↔ t ∈ l2) : l1 = l2 := by
  have hn1 : l1.Nodup := h1.nodup
  have hn2 : l2.Nodup := h2.nodup
  have hperm : l1.Perm l2 := (List.perm_ext_iff_of_nodup hn1 hn2).mpr hmem
  exact List.eq_of_perm_of_sorted hperm
    (List.Pairwise.imp (fun h => le_of_lt h) h1)
    (List.Pairwise.imp (fun h => le_of_lt h) h2)

theorem nodup_lt_length_le (l : List Nat) (n : Nat) (hnd : l.Nodup)
    (hlt : ∀ x ∈ l, x < n) : l.length ≤ n := by
  have h1 : l.toFinset ⊆ Finset.range n := fun x hx =>
    Finset.mem_range.mpr (hlt x (List.mem_toFinset.mp hx))
  have h2 := Finset.card_le_card h1
  rwa [List.toFinset_card_of_nodup hnd, Finset.card_range] at h2

theorem list_getD_oob {α : Type} (l : List α) (i : Nat) (d : α)
    (h : l.length ≤ i) : l.getD i d = d := by
  induction l generalizing i with
  | nil => rfl
  | cons x xs ih =>
    cases i with
    | zero => simp at h
    | succ n => exact ih n (by simpa using h)

theorem keyEntries_services_nodup (i : Nat)
    (es : List (Nat × Nat × List TimeValuePair))
    (hdisj : (es.map pairKS).Nodup) :
    ((keyEntries i es).map Prod.fst).Nodup := by
  have h1 : ((es.filter (fun ent => ent.2.1 = i)).map pairKS).Nodup :=
    List.Nodup.sublist (List.Sublist.map pairKS (List.filter_sublist es)) hdisj
  have h2 : (es.filter (fun ent => ent.2.1 = i)).map pairKS =
      ((es.filter (fun ent => ent.2.1 = i)).map (fun ent => ent.1)).map
        (fun s => (i, s)) := by
    rw [List.map_map]
    apply List.map_congr_left
    intro ent hent
    have hdec := (List.mem_filter.mp hent).2
    have hei : ent.2.1 = i := of_decide_eq_true hdec
    show (ent.2.1, ent.1) = (i, ent.1)
    rw [hei]
  rw [h2] at h1
  have h3 := List.Nodup.of_map _ h1
  have h4 : (keyEntries i es).map Prod.fst =
      (es.filter (fun ent => ent.2.1 = i)).map (fun ent => ent.1) := by
    unfold keyEntries
    rw [List.map_map]
    rfl
  rw [h4]
  exact h3

theorem entriesOfCalls_services_lt (keys services : Nat) (calls : List AddCall)
    (hgood : ∀ call ∈ calls, goodCall keys services call) :
    ∀ ent ∈ entriesOfCalls calls, ent.1 < services := by
  intro ent hent
  unfold entriesOfCalls at hent
  rcases List.mem_flatten.mp hent with ⟨l, hl, hel⟩
  rcases List.mem_map.mp hl with ⟨call, hcall, hlc⟩
  rw [← hlc] at hel
  unfold callEntries at hel
  rcases List.mem_map.mp hel with ⟨pp, hpp, hppe⟩
  rw [← hppe]
  exact (hgood call hcall).2.2

theorem keyEntries_services_lt (i : Nat)
    (es : List (Nat × Nat × List TimeValuePair)) (services : Nat)
    (hsvc : ∀ ent ∈ es, ent.1 < services) :
    ∀ s ∈ (keyEntries i es).map Prod.fst, s < services := by
  intro s hs
  unfold keyEntries at hs
  rw [List.map_map] at hs
  rcases List.mem_map.mp hs with ⟨ent, hent, hes⟩
  have hlt := hsvc ent (List.mem_of_mem_filter hent)
  have hse : ent.1 = s := hes
  rw [← hse]
  exact hlt

theorem entriesOfCalls_perm (calls1 calls2 : List AddCall)
    (h : calls1.Perm calls2) :
    (entriesOfCalls calls1).Perm (entriesOfCalls calls2) :=
  List.Perm.flatten (h.map callEntries)

theorem keyEntries_perm (i : Nat) (es1 es2 : List (Nat × Nat × List TimeValuePair))
    (h : es1.Perm es2) :
    (keyEntries i es1).Perm (keyEntries i es2) :=
  List.Perm.map _ (List.Perm.filter _ h)

theorem keyView_initCollector (keys services : Nat) (b e : Int) (i : Nat) :
    keyView (initCollector keys services b e) i =
      { stats := { count := 0, received := 0 }, merged := [] } := by
  unfold keyView
  rw [initCollector_getD_empty]
  show ({ stats := (List.replicate keys ({ count := 0, received := 0 } : KeyStats)).getD i { count := 0, received := 0 }, merged := [] } : KeyView) = _
  rw [list_getD_replicate]

/-- C3 (amended): over well-formed calls covering pairwise-disjoint
(key, replica) pairs, every key's merged sequence is strictly increasing in
timestamp with no duplicate timestamps, its list of timestamps is the same
for every arrival order of the calls, and the merged sequence never shrinks
as further calls are processed. -/
theorem addResults_order_independence (keys services : Nat) (b e : Int)
    (c0 : BeringeiGetResultCollector)
    (h0 : mkCollector keys services b e = Except.ok c0)
    (calls1 calls2 : List AddCall)
    (hperm : calls1.Perm calls2)
    (hgood : ∀ call ∈ calls1, goodCall keys services call)
    (hdisj : ((entriesOfCalls calls1).map pairKS).Nodup)
    (i : Nat) (pre suf : List AddCall) :
    (((runCollector c0 calls1).result_.results.getD i []).map
      TimeValuePair.unixTime).Sorted (· < ·) ∧
    ((runCollector c0 calls1).result_.results.getD i []).map TimeValuePair.unixTime =
      ((runCollector c0 calls2).result_.results.getD i []).map TimeValuePair.unixTime ∧
    ((runCollector c0 pre).result_.results.getD i []).Sublist
      ((runCollector c0 (pre ++ suf)).result_.results.getD i []) := by
  have hc0 := initCollector_eq_of_mk keys services b e c0 h0
  have hsortinit : ∀ j : Nat,
      ((c0.result_.results.getD j []).map TimeValuePair.unixTime).Sorted (· < ·) := by
    intro j
    rw [hc0, initCollector_getD_empty]
    exact List.sorted_nil
  have hsort1 := runCollector_sorted_inv c0 calls1 hsortinit i
  have hsort2 := runCollector_sorted_inv c0 calls2 hsortinit i
  refine ⟨hsort1, ?_, ?_⟩
  · have hgood2 : ∀ call ∈ calls2, goodCall keys services call :=
      fun call hcall => hgood call (hperm.mem_iff.mpr hcall)
    have hdone : c0.done_ = false := by rw [hc0]; rfl
    have hkeys : c0.complete_.length = keys := by
      rw [hc0]
      simp [initCollector]
    have hwf : c0.result_.results.length = c0.complete_.length := by
      rw [hc0]
      simp [initCollector, BeringeiGetResult.ofSize]
    have hns0 : c0.numServices_ = services := by rw [hc0]; rfl
    have hperme : (entriesOfCalls calls1).Perm (entriesOfCalls calls2) :=
      entriesOfCalls_perm calls1 calls2 hperm
    have hdisj2 : ((entriesOfCalls calls2).map pairKS).Nodup :=
      (List.Perm.nodup_iff (hperme.map pairKS)).mp hdisj
    by_cases hi : i < keys
    · have hr1 := runCollector_eq_foldEntries keys services c0 calls1 hdone hkeys hgood
      have hr2 := runCollector_eq_foldEntries keys services c0 calls2 hdone hkeys hgood2
      have hv0 : keyView c0 i =
          { stats := { count := 0, received := 0 }, merged := [] } := by
        rw [hc0]
        exact keyView_initCollector keys services b e i
      have hkv1 : keyView (runCollector c0 calls1) i =
          foldKey c0.numServices_ c0.beginTime_ c0.endTime_ (keyView c0 i)
            (keyEntries i (entriesOfCalls calls1)) := by
        rw [hr1]
        exact keyView_foldEntries c0 _ i hwf (by rw [hkeys]; exact hi)
      have hkv2 : keyView (runCollector c0 calls2) i =
          foldKey c0.numServices_ c0.beginTime_ c0.endTime_ (keyView c0 i)
            (keyEntries i (entriesOfCalls calls2)) := by
        rw [hr2]
        exact keyView_foldEntries c0 _ i hwf (by rw [hkeys]; exact hi)
      have hnd1 := keyEntries_services_nodup i _ hdisj
      have hnd2 := keyEntries_services_nodup i _ hdisj2
      have hlt1 := keyEntries_services_lt i _ services
        (entriesOfCalls_services_lt keys services calls1 hgood)
      have hlt2 := keyEntries_services_lt i _ services
        (entriesOfCalls_services_lt keys services calls2 hgood2)
      have hlen1 : (keyEntries i (entriesOfCalls calls1)).length ≤ services := by
        have hh := nodup_lt_length_le _ services hnd1 hlt1
        rwa [List.length_map] at hh
      have hlen2 : (keyEntries i (entriesOfCalls calls2)).length ≤ services := by
        have hh := nodup_lt_length_le _ services hnd2 hlt2
        rwa [List.length_map] at hh
      have hub1 : (({ stats := { count := 0, received := 0 }, merged := [] } : KeyView)).stats.count +
          (keyEntries i (entriesOfCalls calls1)).length ≤ c0.numServices_ := by
        show 0 + (keyEntries i (entriesOfCalls calls1)).length ≤ c0.numServices_
        rw [hns0]
        omega
      have hub2 : (({ stats := { count := 0, received := 0 }, merged := [] } : KeyView)).stats.count +
          (keyEntries i (entriesOfCalls calls2)).length ≤ c0.numServices_ := by
        show 0 + (keyEntries i (entriesOfCalls calls2)).length ≤ c0.numServices_
        rw [hns0]
        omega
      have hfresh1 : ∀ p ∈ keyEntries i (entriesOfCalls calls1),
          (({ stats := { count := 0, received := 0 }, merged := [] } : KeyView)).stats.received.testBit p.1 = false :=
        fun p hp => Nat.zero_testBit p.1
      have hfresh2 : ∀ p ∈ keyEntries i (entriesOfCalls calls2),
          (({ stats := { count := 0, received := 0 }, merged := [] } : KeyView)).stats.received.testBit p.1 = false :=
        fun p hp => Nat.zero_testBit p.1
      have hpk : (keyEntries i (entriesOfCalls calls1)).Perm
          (keyEntries i (entriesOfCalls calls2)) := keyEntries_perm i _ _ hperme
      apply sorted_lt_eq_of_mem_iff _ _ hsort1 hsort2
      intro t
      have hm1 := foldKey_times_mem c0.numServices_ c0.beginTime_ c0.endTime_
        (keyEntries i (entriesOfCalls calls1))
        { stats := { count := 0, received := 0 }, merged := [] } t hnd1 hub1 hfresh1
      have hm2 := foldKey_times_mem c0.numServices_ c0.beginTime_ c0.endTime_
        (keyEntries i (entriesOfCalls calls2))
        { stats := { count := 0, received := 0 }, merged := [] } t hnd2 hub2 hfresh2
      have he1 : (runCollector c0 calls1).result_.results.getD i [] =
          (foldKey c0.numServices_ c0.beginTime_ c0.endTime_
            { stats := { count := 0, received := 0 }, merged := [] }
            (keyEntries i (entriesOfCalls calls1))).merged := by
        show (keyView (runCollector c0 calls1) i).merged = _
        rw [hkv1, hv0]
      have he2 : (runCollector c0 calls2).result_.results.getD i [] =
          (foldKey c0.numServices_ c0.beginTime_ c0.endTime_
            { stats := { count := 0, received := 0 }, merged := [] }
            (keyEntries i (entriesOfCalls calls2))).merged := by
        show (keyView (runCollector c0 calls2) i).merged = _
        rw [hkv2, hv0]
      rw [he1, he2, hm1, hm2]
      constructor
      · intro h
        rcases h with h | ⟨p, hp, hq⟩
        · cases h
        · exact Or.inr ⟨p, hpk.mem_iff.mp hp, hq⟩
      · intro h
        rcases h with h | ⟨p, hp, hq⟩
        · cases h
        · exact Or.inr ⟨p, hpk.mem_iff.mpr hp, hq⟩
    · have hl1 : (runCollector c0 calls1).result_.results.length = keys := by
        rw [(runCollector_window_fields c0 calls1).2.2.2.2.2, hc0]
        simp [initCollector, BeringeiGetResult.ofSize]
      have hl2 : (runCollector c0 calls2).result_.results.length = keys := by
        rw [(runCollector_window_fields c0 calls2).2.2.2.2.2, hc0]
        simp [initCollector, BeringeiGetResult.ofSize]
      rw [list_getD_oob _ _ _ (by omega), list_getD_oob _ _ _ (by omega)]
  · rw [runCollector_append]
    exact runCollector_getD_sublist (runCollector c0 pre) suf i

/-- Counterexample to C3 as literally stated: both calls are well-formed
and cover pairwise-disjoint (key, replica) pairs, the two arrival orders
are permutations of one another, yet the final merged sequences differ —
the value kept at timestamp 5 depends on arrival order because of the
first-writer-wins policy. -/
theorem merge_order_dependent_counterexample :
    mkCollector 1 2 0 10 = Except.ok c0ex ∧
    [callA, callB].Perm [callB, callA] ∧
    (∀ call ∈ [callA, callB], goodCall 1 2 call) ∧
    ((entriesOfCalls [callA, callB]).map pairKS).Nodup ∧
    (runCollector c0ex [callA, callB]).result_.results.getD 0 [] ≠
      (runCollector c0ex [callB, callA]).result_.results.getD 0 [] := by
  refine ⟨rfl, by decide, by decide, by decide, by decide⟩

/-- Witness for the amended C3 at a concrete input. -/
theorem addResults_order_independence_witness :
    ((((runCollector c0ex [callA, callB]).result_.results.getD 0 []).map
      TimeValuePair.unixTime).Sorted (· < ·)) ∧
    ((runCollector c0ex [callA, callB]).result_.results.getD 0 []).map
        TimeValuePair.unixTime =
      ((runCollector c0ex [callB, callA]).result_.results.getD 0 []).map
        TimeValuePair.unixTime ∧
    ((runCollector c0ex [callA]).result_.results.getD 0 []).Sublist
      ((runCollector c0ex ([callA] ++ [callB])).result_.results.getD 0 []) :=
  addResults_order_independence 1 2 0 10 c0ex rfl [callA, callB] [callB, callA]
    (by decide) (by decide) (by decide) 0 [callA] [callB]
